import Mathlib

set_option maxHeartbeats 1000000

/-!
Verification of the graph-search scripts (BFS_Graph.py, DFS_Graph.py,
AStar_Graph.py) and the interval-DP tile solver (Q_(2.a).py) of the
Advance_Alg_Assignment repository.  Nat labels are embedded as natural
numbers, edge weights as natural numbers, Python dicts as functions or
association lists.  Each search loop is embedded with an explicit fuel
argument; `none` means the fuel ran out (the real loops always terminate,
which is proved below), `some` is the value the Python function returns.
-/

namespace Spec2Proof

/-- Adjacency map: the module-level `graph` dict of the Python scripts,
mapping a node to its list of `(neighbor, cost)` pairs. -/
abbrev Adj := Nat → List (Nat × Nat)

/-- Weighted walks of the graph: `Walk adj u v c k` holds when there is a
walk from `u` to `v` using edges of the adjacency map whose weights sum to
`c` and which uses `k` edges (hops). -/
inductive Walk (adj : Adj) : Nat → Nat → Nat → Nat → Prop where
  | nil (v : Nat) : Walk adj v v 0 0
  | cons {u w v : Nat} {c d k : Nat} :
      (w, c) ∈ adj u → Walk adj w v d k → Walk adj u v (c + d) (k + 1)

/-- `v` can be reached from `u` in the graph. -/
def Reachable (adj : Adj) (u v : Nat) : Prop :=
  ∃ c k, Walk adj u v c k

/-- Well-formedness of the adjacency map used for termination arguments:
every neighbor mentioned anywhere lies in the finite node list. -/
def WF (adj : Adj) (nodes : List Nat) : Prop :=
  ∀ v p, p ∈ adj v → p.1 ∈ nodes

/-- A heuristic table is consistent when it satisfies the triangle
inequality along every edge of the graph. -/
def Consistent (adj : Adj) (h : Nat → Nat) : Prop :=
  ∀ v p, p ∈ adj v → h v ≤ p.2 + h p.1

/-- A heuristic table is admissible for `goal` when it never overestimates
the cost of any walk to `goal`. -/
def Admissible (adj : Adj) (h : Nat → Nat) (goal : Nat) : Prop :=
  ∀ v c k, Walk adj v goal c k → h v ≤ c

/-- The node list `p` is a walk through the graph costing `c`: consecutive
elements are adjacent and the corresponding edge weights sum to `c`. -/
inductive ListWalk (adj : Adj) : List Nat → Nat → Prop where
  | single (v : Nat) : ListWalk adj [v] 0
  | cons {v w : Nat} {rest : List Nat} {c d : Nat} :
      (w, c) ∈ adj v → ListWalk adj (w :: rest) d →
      ListWalk adj (v :: w :: rest) (c + d)

/-- `p` is a path from `s` to `t` of total weight `c`. -/
def PathTo (adj : Adj) (s t : Nat) (p : List Nat) (c : Nat) : Prop :=
  ListWalk adj p c ∧ p.head? = some s ∧ p.getLast? = some t

/- ----------------------------------------------------------------
BFS (src/BFS_Graph.py, function `bfs`)
---------------------------------------------------------------- -/

/-- One entry of the `steps` trace recorded by `bfs` (and `dfs`):
the expanded node, the path stored with it, the snapshot of the open
container and of the closed set. -/
structure SStep where
  cur : Nat
  path : List Nat
  openSnap : List Nat
  closedSnap : List Nat
deriving DecidableEq, Repr

/-- The `while open_queue:` loop of `bfs`.  The queue is a FIFO list
(head = front), `closed` embeds the `closed_set`, `steps` the trace.
Neighbors are pushed in ascending order of node id, mirroring
`sorted(graph[current], key=lambda x: x[0])`. -/
def bfsLoop (adj : Adj) (goal : Nat) :
    Nat → List (Nat × List Nat) → List Nat → List SStep →
    Option (Option (List Nat) × List SStep)
  | 0, _, _, _ => none
  | _ + 1, [], _, steps => some (none, steps)
  | fuel + 1, (cur, path) :: rest, closed, steps =>
    if cur ∈ closed then
      bfsLoop adj goal fuel rest closed steps
    else
      let closed' := cur :: closed
      let steps' := steps ++ [⟨cur, path, rest.map Prod.fst, closed'⟩]
      if cur = goal then
        some (some path, steps')
      else
        let nbrs := (adj cur).insertionSort (fun a b => a.1 ≤ b.1)
        let pushes := (nbrs.filter (fun p => p.1 ∉ closed')).map
          (fun p => (p.1, path ++ [p.1]))
        bfsLoop adj goal fuel (rest ++ pushes) closed' steps'

/-- `bfs(start, goal)` of BFS_Graph.py, with fuel. -/
def bfs (adj : Adj) (start goal : Nat) (fuel : Nat) :
    Option (Option (List Nat) × List SStep) :=
  bfsLoop adj goal fuel [(start, [start])] [] []

/- ----------------------------------------------------------------
DFS (src/DFS_Graph.py, function `dfs`)
---------------------------------------------------------------- -/

/-- The `while open_list:` loop of `dfs`.  The stack is a list whose head
is the top.  Python appends the reverse-sorted neighbors one by one at the
end of the list and pops from the end, which is the same as prepending the
reversed push list to the head-is-top stack. -/
def dfsLoop (adj : Adj) (goal : Nat) :
    Nat → List (Nat × List Nat) → List Nat → List SStep →
    Option (Option (List Nat) × List SStep)
  | 0, _, _, _ => none
  | _ + 1, [], _, steps => some (none, steps)
  | fuel + 1, (cur, path) :: rest, closed, steps =>
    if cur ∈ closed then
      dfsLoop adj goal fuel rest closed steps
    else
      let closed' := cur :: closed
      let steps' := steps ++ [⟨cur, path, rest.map Prod.fst, closed'⟩]
      if cur = goal then
        some (some path, steps')
      else
        let nbrs := (adj cur).insertionSort (fun a b => b.1 ≤ a.1)
        let pushes := (nbrs.filter (fun p => p.1 ∉ closed')).map
          (fun p => (p.1, path ++ [p.1]))
        dfsLoop adj goal fuel (pushes.reverse ++ rest) closed' steps'

/-- `dfs(start, goal)` of DFS_Graph.py, with fuel. -/
def dfs (adj : Adj) (start goal : Nat) (fuel : Nat) :
    Option (Option (List Nat) × List SStep) :=
  dfsLoop adj goal fuel [(start, [start])] [] []

/- ----------------------------------------------------------------
A* (src/AStar_Graph.py, function `astar`)
---------------------------------------------------------------- -/

/-- Heap entries of `astar`: `(f_cost, g_cost, node, path)`. -/
abbrev AEntry := Nat × Nat × Nat × List Nat

/-- Lexicographic comparison of node paths (Python compares the lists
elementwise when all earlier tuple components tie). -/
def pathLe : List Nat → List Nat → Bool
  | [], _ => true
  | _ :: _, [] => false
  | a :: as_, b :: bs =>
    if a < b then true else if b < a then false else pathLe as_ bs

/-- Lexicographic comparison of heap entries, mirroring Python tuple
comparison `(f, g, node, path)`. -/
def entryLe (a b : AEntry) : Bool :=
  if a.1 < b.1 then true else if b.1 < a.1 then false
  else if a.2.1 < b.2.1 then true else if b.2.1 < a.2.1 then false
  else if a.2.2.1 < b.2.2.1 then true else if b.2.2.1 < a.2.2.1 then false
  else pathLe a.2.2.2 b.2.2.2

/-- `heapq.heappop`: remove and return the least entry of the heap. -/
def popMin : List AEntry → Option (AEntry × List AEntry)
  | [] => none
  | e :: es =>
    match popMin es with
    | none => some (e, [])
    | some (m, rest) =>
      if entryLe e m then some (e, es) else some (m, e :: rest)

/-- One entry of the `steps` trace recorded by `astar`. -/
structure AStep where
  cur : Nat
  path : List Nat
  fCost : Nat
  gCost : Nat
  hCost : Nat
  closedSnap : List Nat
deriving DecidableEq, Repr

/-- The `for neighbor, edge_cost in graph[current]:` loop of `astar`,
threading the `g_costs` dict and collecting the pushed heap entries. -/
def relax (h : Nat → Nat) (gc : Nat) (path : List Nat)
    (closed' : List Nat) :
    List (Nat × Nat) → (Nat → Option Nat) → List AEntry →
    (Nat → Option Nat) × List AEntry
  | [], gm, pl => (gm, pl)
  | nc :: ncs, gm, pl =>
    if nc.1 ∉ closed' then
      let newg := gc + nc.2
      if gm nc.1 = none ∨ newg < (gm nc.1).getD 0 then
        relax h gc path closed' ncs
          (fun v => if v = nc.1 then some newg else gm v)
          (pl ++ [(newg + h nc.1, newg, nc.1, path ++ [nc.1])])
      else
        relax h gc path closed' ncs gm pl
    else
      relax h gc path closed' ncs gm pl

/-- The `while open_heap:` loop of `astar`.  The heap is embedded as the
list of its entries with `popMin` playing `heappop`. -/
def astarLoop (adj : Adj) (h : Nat → Nat) (goal : Nat) :
    Nat → List AEntry → (Nat → Option Nat) → List Nat → List AStep →
    Option (Option (List Nat) × Nat × List AStep)
  | 0, _, _, _, _ => none
  | fuel + 1, oq, gm, closed, steps =>
    match popMin oq with
    | none => some (none, 0, steps)
    | some ((f, gc, cur, path), rest) =>
      if cur ∈ closed then
        astarLoop adj h goal fuel rest gm closed steps
      else
        let closed' := cur :: closed
        let steps' := steps ++ [⟨cur, path, f, gc, h cur, closed'⟩]
        if cur = goal then
          some (some path, gc, steps')
        else
          let gp := relax h gc path closed' (adj cur) gm []
          astarLoop adj h goal fuel (rest ++ gp.2) gp.1 closed' steps'

/-- `astar(start, goal)` of AStar_Graph.py, with fuel, for a heuristic
table that has an entry for every node (embedded as a total function). -/
def astar (adj : Adj) (h : Nat → Nat) (start goal : Nat) (fuel : Nat) :
    Option (Option (List Nat) × Nat × List AStep) :=
  astarLoop adj h goal fuel [(h start, 0, start, [start])]
    (fun v => if v = start then some 0 else none) [] []

/- ----------------------------------------------------------------
A* with a partial heuristic table (for the heuristic-lookup claim).
`heuristic[x]` on a dict without the key `x` raises `KeyError(x)`,
embedded as `Except.error x`.
---------------------------------------------------------------- -/

/-- Dict lookup in the `heuristic` table. -/
def lookupH (table : List (Nat × Nat)) (v : Nat) : Option Nat :=
  (table.find? (fun p => p.1 == v)).map (fun p => p.2)

/-- `relax` against a partial heuristic table: reaching a neighbor with no
table entry raises `KeyError(neighbor)`. -/
def relaxP (table : List (Nat × Nat)) (gc : Nat) (path : List Nat)
    (closed' : List Nat) :
    List (Nat × Nat) → (Nat → Option Nat) → List AEntry →
    Except Nat ((Nat → Option Nat) × List AEntry)
  | [], gm, pl => .ok (gm, pl)
  | nc :: ncs, gm, pl =>
    if nc.1 ∉ closed' then
      let newg := gc + nc.2
      if gm nc.1 = none ∨ newg < (gm nc.1).getD 0 then
        match lookupH table nc.1 with
        | none => .error nc.1
        | some hn =>
          relaxP table gc path closed' ncs
            (fun v => if v = nc.1 then some newg else gm v)
            (pl ++ [(newg + hn, newg, nc.1, path ++ [nc.1])])
      else
        relaxP table gc path closed' ncs gm pl
    else
      relaxP table gc path closed' ncs gm pl

/-- The `astar` loop against a partial heuristic table. -/
def astarLoopP (adj : Adj) (table : List (Nat × Nat)) (goal : Nat) :
    Nat → List AEntry → (Nat → Option Nat) → List Nat → List AStep →
    Option (Except Nat (Option (List Nat) × Nat × List AStep))
  | 0, _, _, _, _ => none
  | fuel + 1, oq, gm, closed, steps =>
    match popMin oq with
    | none => some (.ok (none, 0, steps))
    | some ((f, gc, cur, path), rest) =>
      if cur ∈ closed then
        astarLoopP adj table goal fuel rest gm closed steps
      else
        match lookupH table cur with
        | none => some (.error cur)
        | some hc =>
          let closed' := cur :: closed
          let steps' := steps ++ [⟨cur, path, f, gc, hc, closed'⟩]
          if cur = goal then
            some (.ok (some path, gc, steps'))
          else
            match relaxP table gc path closed' (adj cur) gm [] with
            | .error x => some (.error x)
            | .ok gp =>
              astarLoopP adj table goal fuel (rest ++ gp.2) gp.1 closed' steps'

/-- `astar(start, goal)` against a partial heuristic table; the initial
push evaluates `heuristic[start]` and raises if it is missing. -/
def astarP (adj : Adj) (table : List (Nat × Nat)) (start goal : Nat)
    (fuel : Nat) :
    Option (Except Nat (Option (List Nat) × Nat × List AStep)) :=
  match lookupH table start with
  | none => some (.error start)
  | some hs =>
    astarLoopP adj table goal fuel [(hs, 0, start, [start])]
      (fun v => if v = start then some 0 else none) [] []

/- ----------------------------------------------------------------
Interval DP tile solver (src/Q_(2.a).py, function `strategic_tile_shatter`)
---------------------------------------------------------------- -/

/-- `dp[i][j]` of the Python list-of-lists DP table. -/
def tblGet (dp : List (List Nat)) (i j : Nat) : Nat :=
  (dp.getD i []).getD j 0

/-- `dp[i][j] = v` on the Python list-of-lists DP table. -/
def tblSet (dp : List (List Nat)) (i j v : Nat) : List (List Nat) :=
  dp.set i ((dp.getD i []).set j v)

/-- The `for k in range(left + 1, right):` loop updating `dp[left][right]`. -/
def tileInner (arr : List Nat) (l r : Nat) (dp : List (List Nat)) :
    List (List Nat) :=
  (List.range' (l + 1) (r - (l + 1))).foldl
    (fun dp k =>
      let points := tblGet dp l k + tblGet dp k r +
        arr.getD l 0 * arr.getD k 0 * arr.getD r 0
      tblSet dp l r (max (tblGet dp l r) points))
    dp

/-- The `for left in range(0, n - length):` loop. -/
def tileMid (arr : List Nat) (n len : Nat) (dp : List (List Nat)) :
    List (List Nat) :=
  (List.range' 0 (n - len)).foldl
    (fun dp l => tileInner arr l (l + len) dp) dp

/-- The `for length in range(2, n):` loop, starting from the n-by-n table
of zeros created by `[[0 for _ in range(n)] for _ in range(n)]`. -/
def tileDP (arr : List Nat) (n : Nat) : List (List Nat) :=
  (List.range' 2 (n - 2)).foldl
    (fun dp len => tileMid arr n len dp)
    (List.replicate n (List.replicate n 0))

/-- `strategic_tile_shatter(tile_multipliers)` of Q_(2.a).py: pad with 1 on
both sides, fill the DP table, return `dp[0][n-1]`. -/
def strategic_tile_shatter (tiles : List Nat) : Nat :=
  let arr := 1 :: tiles ++ [1]
  let n := arr.length
  tblGet (tileDP arr n) 0 (n - 1)

/-- The reference recurrence of the specification:
`score(left,right) = max over k in (left,right) of
score(left,k) + score(k,right) + arr[left]*arr[k]*arr[right]`,
with value 0 when no interior split point exists. -/
def tileScore (arr : List Nat) (l r : Nat) : Nat :=
  (List.range' (l + 1) (r - (l + 1))).attach.foldl
    (fun acc k =>
      max acc (tileScore arr l k.1 + tileScore arr k.1 r +
        arr.getD l 0 * arr.getD k.1 0 * arr.getD r 0))
    0
termination_by r - l
decreasing_by
  all_goals
    have := List.mem_range'_1.mp k.2
    omega

/- ----------------------------------------------------------------
Interval DP: the table computed by `strategic_tile_shatter` realizes the
reference recurrence `tileScore`.
---------------------------------------------------------------- -/

lemma tileScore_eq_fold (arr : List Nat) (l r : Nat) :
    tileScore arr l r = (List.range' (l + 1) (r - (l + 1))).foldl
      (fun acc k => max acc (tileScore arr l k + tileScore arr k r +
        arr.getD l 0 * arr.getD k 0 * arr.getD r 0)) 0 := by
  rw [tileScore]
  exact List.foldl_attach (List.range' (l + 1) (r - (l + 1)))
    (fun acc k => max acc (tileScore arr l k + tileScore arr k r +
      arr.getD l 0 * arr.getD k 0 * arr.getD r 0)) 0

lemma tileScore_base {arr : List Nat} {l r : Nat} (h : r ≤ l + 1) :
    tileScore arr l r = 0 := by
  rw [tileScore_eq_fold]
  have h0 : r - (l + 1) = 0 := by omega
  rw [h0]
  rfl

/-- The DP table is an n-by-n rectangle. -/
def Rect (n : Nat) (dp : List (List Nat)) : Prop :=
  dp.length = n ∧ ∀ i, i < n → (dp.getD i []).length = n

lemma tblSet_row_eq {dp : List (List Nat)} {i : Nat} (h : i < dp.length)
    (j v : Nat) : (tblSet dp i j v).getD i [] = (dp.getD i []).set j v := by
  unfold tblSet
  rw [List.getD_eq_getElem _ _ (by simpa using h)]
  exact List.getElem_set_self _

lemma tblSet_row_ne {dp : List (List Nat)} {i a : Nat} (hne : a ≠ i)
    (j v : Nat) : (tblSet dp i j v).getD a [] = dp.getD a [] := by
  unfold tblSet
  rw [List.getD_eq_getElem?_getD, List.getElem?_set_ne (fun h => hne h.symm),
    ← List.getD_eq_getElem?_getD]

lemma Rect.tblSet {n : Nat} {dp : List (List Nat)} (h : Rect n dp)
    (i j v : Nat) : Rect n (Spec2Proof.tblSet dp i j v) := by
  refine ⟨by simpa [Spec2Proof.tblSet] using h.1, fun a ha => ?_⟩
  by_cases hai : a = i
  · subst hai
    rw [tblSet_row_eq (h.1 ▸ ha)]
    simpa using h.2 a ha
  · rw [tblSet_row_ne hai]
    exact h.2 a ha

lemma tblGet_set_eq {n : Nat} {dp : List (List Nat)} (h : Rect n dp)
    {i j : Nat} (hi : i < n) (hj : j < n) (v : Nat) :
    tblGet (tblSet dp i j v) i j = v := by
  unfold tblGet
  rw [tblSet_row_eq (h.1 ▸ hi)]
  have hlen : j < ((dp.getD i []).set j v).length := by
    rw [List.length_set, h.2 i hi]
    exact hj
  rw [List.getD_eq_getElem _ _ hlen]
  exact List.getElem_set_self hlen

lemma tblGet_set_ne {dp : List (List Nat)} {i j a b : Nat} (v : Nat)
    (hne : ¬(a = i ∧ b = j)) :
    tblGet (tblSet dp i j v) a b = tblGet dp a b := by
  unfold tblGet
  by_cases hai : a = i
  · subst hai
    have hbj : b ≠ j := fun hb => hne ⟨rfl, hb⟩
    by_cases hlen : a < dp.length
    · rw [tblSet_row_eq hlen]
      rw [List.getD_eq_getElem?_getD, List.getElem?_set_ne (fun h => hbj h.symm),
        ← List.getD_eq_getElem?_getD]
    · have h1 : (tblSet dp a j v).getD a [] = [] := by
        apply List.getD_eq_default
        simpa [tblSet] using Nat.le_of_not_lt hlen
      have h2 : dp.getD a [] = [] :=
        List.getD_eq_default _ _ (Nat.le_of_not_lt hlen)
      rw [h1, h2]
  · rw [tblSet_row_ne hai]

lemma tblGet_init (n i j : Nat) :
    tblGet (List.replicate n (List.replicate n 0)) i j = 0 := by
  unfold tblGet
  rcases Nat.lt_or_ge i n with hi | hi
  · have h1 : (List.replicate n (List.replicate n 0)).getD i [] =
        List.replicate n 0 := by
      rw [List.getD_eq_getElem _ _ (by simpa using hi)]
      simp
    rw [h1]
    rcases Nat.lt_or_ge j n with hj | hj
    · rw [List.getD_eq_getElem _ _ (by simpa using hj)]
      simp
    · exact List.getD_eq_default _ _ (by simpa using hj)
  · have h1 : (List.replicate n (List.replicate n 0)).getD i [] = [] :=
      List.getD_eq_default _ _ (by simpa using hi)
    rw [h1]
    rfl

lemma Rect_init (n : Nat) : Rect n (List.replicate n (List.replicate n 0)) := by
  refine ⟨by simp, fun i hi => ?_⟩
  have h1 : (List.replicate n (List.replicate n 0)).getD i [] =
      List.replicate n 0 := by
    rw [List.getD_eq_getElem _ _ (by simpa using hi)]
    simp
  rw [h1]
  simp

/-- Invariant of the DP table after all interval lengths `≤ L` have been
processed: short cells hold the recurrence value, all others are still 0. -/
def DPInv (arr : List Nat) (n L : Nat) (dp : List (List Nat)) : Prop :=
  Rect n dp ∧
  (∀ l r, r < n → r - l ≤ L → tblGet dp l r = tileScore arr l r) ∧
  (∀ l r, n ≤ r ∨ L < r - l → tblGet dp l r = 0)

lemma foldl_ext_mem {α β : Type} {f g : β → α → β} :
    ∀ (ks : List α) (a : β), (∀ acc k, k ∈ ks → f acc k = g acc k) →
      ks.foldl f a = ks.foldl g a
  | [], _, _ => rfl
  | k :: ks, a, h => by
    rw [List.foldl_cons, List.foldl_cons, h a k (by simp)]
    exact foldl_ext_mem ks _ (fun acc k' hk' => h acc k' (by simp [hk']))

lemma tileInner_go (arr : List Nat) (n l r : Nat) :
    ∀ (ks : List Nat) (dp : List (List Nat)), Rect n dp → l < n → r < n →
      (∀ k ∈ ks, k ≠ r ∧ k ≠ l) →
      Rect n (ks.foldl (fun dp k =>
          let points := tblGet dp l k + tblGet dp k r +
            arr.getD l 0 * arr.getD k 0 * arr.getD r 0
          tblSet dp l r (max (tblGet dp l r) points)) dp) ∧
      (∀ a b, ¬(a = l ∧ b = r) →
        tblGet (ks.foldl (fun dp k =>
          let points := tblGet dp l k + tblGet dp k r +
            arr.getD l 0 * arr.getD k 0 * arr.getD r 0
          tblSet dp l r (max (tblGet dp l r) points)) dp) a b = tblGet dp a b) ∧
      tblGet (ks.foldl (fun dp k =>
          let points := tblGet dp l k + tblGet dp k r +
            arr.getD l 0 * arr.getD k 0 * arr.getD r 0
          tblSet dp l r (max (tblGet dp l r) points)) dp) l r =
        ks.foldl (fun acc k => max acc (tblGet dp l k + tblGet dp k r +
          arr.getD l 0 * arr.getD k 0 * arr.getD r 0)) (tblGet dp l r)
  | [], dp, hRect, _, _, _ => ⟨hRect, fun _ _ _ => rfl, rfl⟩
  | k :: ks, dp, hRect, hl, hr, hks => by
    have hkr : k ≠ r := (hks k (by simp)).1
    have hkl : k ≠ l := (hks k (by simp)).2
    have hRect' : Rect n (tblSet dp l r (max (tblGet dp l r)
        (tblGet dp l k + tblGet dp k r +
          arr.getD l 0 * arr.getD k 0 * arr.getD r 0))) :=
      hRect.tblSet l r _
    have ih := tileInner_go arr n l r ks
      (tblSet dp l r (max (tblGet dp l r)
        (tblGet dp l k + tblGet dp k r +
          arr.getD l 0 * arr.getD k 0 * arr.getD r 0)))
      hRect' hl hr (fun k' hk' => hks k' (by simp [hk']))
    have hread1 : ∀ k', k' ≠ r →
        tblGet (tblSet dp l r (max (tblGet dp l r)
          (tblGet dp l k + tblGet dp k r +
            arr.getD l 0 * arr.getD k 0 * arr.getD r 0))) l k' =
          tblGet dp l k' :=
      fun k' hk' => tblGet_set_ne _ (fun hh => hk' hh.2)
    have hread2 : ∀ k', k' ≠ l →
        tblGet (tblSet dp l r (max (tblGet dp l r)
          (tblGet dp l k + tblGet dp k r +
            arr.getD l 0 * arr.getD k 0 * arr.getD r 0))) k' r =
          tblGet dp k' r :=
      fun k' hk' => tblGet_set_ne _ (fun hh => hk' hh.1)
    have hcell : tblGet (tblSet dp l r (max (tblGet dp l r)
        (tblGet dp l k + tblGet dp k r +
          arr.getD l 0 * arr.getD k 0 * arr.getD r 0))) l r =
        max (tblGet dp l r) (tblGet dp l k + tblGet dp k r +
          arr.getD l 0 * arr.getD k 0 * arr.getD r 0) :=
      tblGet_set_eq hRect hl hr _
    refine ⟨ih.1, ?_, ?_⟩
    · intro a b hab
      have hstep : tblGet ((k :: ks).foldl (fun dp k =>
          let points := tblGet dp l k + tblGet dp k r +
            arr.getD l 0 * arr.getD k 0 * arr.getD r 0
          tblSet dp l r (max (tblGet dp l r) points)) dp) a b =
        tblGet (ks.foldl (fun dp k =>
          let points := tblGet dp l k + tblGet dp k r +
            arr.getD l 0 * arr.getD k 0 * arr.getD r 0
          tblSet dp l r (max (tblGet dp l r) points))
          (tblSet dp l r (max (tblGet dp l r)
            (tblGet dp l k + tblGet dp k r +
              arr.getD l 0 * arr.getD k 0 * arr.getD r 0)))) a b := rfl
      rw [hstep, ih.2.1 a b hab]
      exact tblGet_set_ne _ hab
    · have hstep : tblGet ((k :: ks).foldl (fun dp k =>
          let points := tblGet dp l k + tblGet dp k r +
            arr.getD l 0 * arr.getD k 0 * arr.getD r 0
          tblSet dp l r (max (tblGet dp l r) points)) dp) l r =
        tblGet (ks.foldl (fun dp k =>
          let points := tblGet dp l k + tblGet dp k r +
            arr.getD l 0 * arr.getD k 0 * arr.getD r 0
          tblSet dp l r (max (tblGet dp l r) points))
          (tblSet dp l r (max (tblGet dp l r)
            (tblGet dp l k + tblGet dp k r +
              arr.getD l 0 * arr.getD k 0 * arr.getD r 0)))) l r := rfl
      have hstepR : (k :: ks).foldl (fun acc k => max acc
          (tblGet dp l k + tblGet dp k r +
            arr.getD l 0 * arr.getD k 0 * arr.getD r 0)) (tblGet dp l r) =
        ks.foldl (fun acc k => max acc
          (tblGet dp l k + tblGet dp k r +
            arr.getD l 0 * arr.getD k 0 * arr.getD r 0))
          (max (tblGet dp l r) (tblGet dp l k + tblGet dp k r +
            arr.getD l 0 * arr.getD k 0 * arr.getD r 0)) := rfl
      rw [hstep, hstepR, ih.2.2, hcell]
      exact foldl_ext_mem ks _ (fun acc k' hk' => by
        rw [hread1 k' (hks k' (by simp [hk'])).1,
          hread2 k' (hks k' (by simp [hk'])).2])

lemma tileInner_spec (arr : List Nat) (n : Nat) (dp : List (List Nat))
    (l r : Nat) (hRect : Rect n dp) (hr : r < n) (hlr : l + 1 ≤ r)
    (hvals : ∀ k, l + 1 ≤ k → k < r →
      tblGet dp l k = tileScore arr l k ∧ tblGet dp k r = tileScore arr k r)
    (hzero : tblGet dp l r = 0) :
    Rect n (tileInner arr l r dp) ∧
    (∀ a b, ¬(a = l ∧ b = r) →
      tblGet (tileInner arr l r dp) a b = tblGet dp a b) ∧
    tblGet (tileInner arr l r dp) l r = tileScore arr l r := by
  have hl : l < n := by omega
  have hks : ∀ k ∈ List.range' (l + 1) (r - (l + 1)), k ≠ r ∧ k ≠ l := by
    intro k hk
    have := List.mem_range'_1.mp hk
    omega
  have hgo := tileInner_go arr n l r (List.range' (l + 1) (r - (l + 1))) dp
    hRect hl hr hks
  have heqInner : tileInner arr l r dp =
      (List.range' (l + 1) (r - (l + 1))).foldl (fun dp k =>
        let points := tblGet dp l k + tblGet dp k r +
          arr.getD l 0 * arr.getD k 0 * arr.getD r 0
        tblSet dp l r (max (tblGet dp l r) points)) dp := rfl
  refine ⟨heqInner ▸ hgo.1, fun a b hab => heqInner ▸ hgo.2.1 a b hab, ?_⟩
  rw [heqInner, hgo.2.2]
  rw [hzero, tileScore_eq_fold]
  exact foldl_ext_mem _ _ (fun acc k hk => by
    have hkb := List.mem_range'_1.mp hk
    rw [(hvals k (by omega) (by omega)).1, (hvals k (by omega) (by omega)).2])

/-- Intermediate invariant of the `for left in ...` loop: the cells
`(l, l + (L+1))` with `l ∈ S` already hold the recurrence value. -/
def MidState (arr : List Nat) (n L : Nat) (S : List Nat)
    (dp : List (List Nat)) : Prop :=
  Rect n dp ∧
  (∀ l r, r < n → (r - l ≤ L ∨ (r = l + (L + 1) ∧ l ∈ S)) →
    tblGet dp l r = tileScore arr l r) ∧
  (∀ l r, n ≤ r ∨ (L < r - l ∧ ¬(r = l + (L + 1) ∧ l ∈ S)) →
    tblGet dp l r = 0)

lemma midState_dpInv {arr : List Nat} {n L : Nat} {S : List Nat}
    {dp : List (List Nat)} (h : MidState arr n L S dp)
    (hS : ∀ l, l + (L + 1) < n → l ∈ S) : DPInv arr n (L + 1) dp := by
  refine ⟨h.1, fun l r hr hlr => ?_, fun l r hor => ?_⟩
  · rcases Nat.lt_or_ge (r - l) (L + 1) with hc | hc
    · exact h.2.1 l r hr (Or.inl (by omega))
    · have hrl : r = l + (L + 1) := by omega
      exact h.2.1 l r hr (Or.inr ⟨hrl, hS l (by omega)⟩)
  · apply h.2.2
    rcases hor with hor | hor
    · exact Or.inl hor
    · rcases Nat.lt_or_ge r n with hrn | hrn
      · exact Or.inr ⟨by omega, fun hcon => by omega⟩
      · exact Or.inl hrn

lemma midState_of_dpInv {arr : List Nat} {n L : Nat} {dp : List (List Nat)}
    (h : DPInv arr n L dp) : MidState arr n L [] dp := by
  refine ⟨h.1, fun l r hr hc => ?_, fun l r hc => ?_⟩
  · rcases hc with hc | hc
    · exact h.2.1 l r hr hc
    · simp at hc
  · apply h.2.2
    rcases hc with hc | hc
    · exact Or.inl hc
    · exact Or.inr hc.1

lemma midState_congr {arr : List Nat} {n L : Nat} {S S' : List Nat}
    {dp : List (List Nat)} (h : MidState arr n L S dp)
    (hSS : ∀ x, x ∈ S ↔ x ∈ S') : MidState arr n L S' dp := by
  refine ⟨h.1, fun l r hr hc => ?_, fun l r hc => ?_⟩
  · refine h.2.1 l r hr ?_
    rcases hc with hc | hc
    · exact Or.inl hc
    · exact Or.inr ⟨hc.1, (hSS l).mpr hc.2⟩
  · refine h.2.2 l r ?_
    rcases hc with hc | hc
    · exact Or.inl hc
    · exact Or.inr ⟨hc.1, fun hcon => hc.2 ⟨hcon.1, (hSS l).mp hcon.2⟩⟩

lemma tileMid_go (arr : List Nat) (n L : Nat) :
    ∀ (ls S : List Nat) (dp : List (List Nat)), MidState arr n L S dp →
      (∀ l ∈ ls, l + (L + 1) < n ∧ l ∉ S) → ls.Nodup →
      MidState arr n L (ls ++ S)
        (ls.foldl (fun dp l => tileInner arr l (l + (L + 1)) dp) dp)
  | [], S, dp, hmid, _, _ => hmid
  | l :: ls, S, dp, hmid, hls, hnd => by
    have hl := hls l (by simp)
    have hinner := tileInner_spec arr n dp l (l + (L + 1)) hmid.1 hl.1
      (by omega)
      (fun k hk1 hk2 => ⟨hmid.2.1 l k (by omega) (Or.inl (by omega)),
        hmid.2.1 k (l + (L + 1)) (by omega) (Or.inl (by omega))⟩)
      (hmid.2.2 l (l + (L + 1)) (Or.inr ⟨by omega,
        fun hcon => hl.2 hcon.2⟩))
    have hmid' : MidState arr n L (l :: S) (tileInner arr l (l + (L + 1)) dp) := by
      refine ⟨hinner.1, fun a b hb hc => ?_, fun a b hc => ?_⟩
      · rcases hc with hc | hc
        · rw [hinner.2.1 a b (fun hab => by omega)]
          exact hmid.2.1 a b hb (Or.inl hc)
        · rcases List.mem_cons.mp hc.2 with hal | haS
          · subst hal
            rw [hc.1]
            exact hinner.2.2
          · have hne : ¬(a = l ∧ b = l + (L + 1)) := by
              rintro ⟨rfl, _⟩
              exact hl.2 haS
            rw [hinner.2.1 a b hne]
            exact hmid.2.1 a b hb (Or.inr ⟨hc.1, haS⟩)
      · have hne : ¬(a = l ∧ b = l + (L + 1)) := by
          rintro ⟨rfl, rfl⟩
          rcases hc with hc | hc
          · omega
          · exact hc.2 ⟨rfl, by simp⟩
        rw [hinner.2.1 a b hne]
        refine hmid.2.2 a b ?_
        rcases hc with hc | hc
        · exact Or.inl hc
        · exact Or.inr ⟨hc.1, fun hcon => hc.2 ⟨hcon.1, by simp [hcon.2]⟩⟩
    have hih := tileMid_go arr n L ls (l :: S)
      (tileInner arr l (l + (L + 1)) dp) hmid'
      (fun x hx => ⟨(hls x (by simp [hx])).1, by
        intro hcon
        rcases List.mem_cons.mp hcon with hxl | hxS
        · exact (List.nodup_cons.mp hnd).1 (hxl ▸ hx)
        · exact (hls x (by simp [hx])).2 hxS⟩)
      (List.nodup_cons.mp hnd).2
    rw [List.foldl_cons]
    refine midState_congr hih (fun x => ?_)
    simp only [List.mem_append, List.mem_cons]
    tauto

lemma tileMid_spec (arr : List Nat) (n L : Nat) (dp : List (List Nat))
    (h : DPInv arr n L dp) : DPInv arr n (L + 1) (tileMid arr n (L + 1) dp) := by
  have hgo := tileMid_go arr n L (List.range' 0 (n - (L + 1))) [] dp
    (midState_of_dpInv h)
    (fun l hl => ⟨by have := List.mem_range'_1.mp hl; omega, by simp⟩)
    (List.nodup_range' 0 (n - (L + 1)))
  have heq : tileMid arr n (L + 1) dp =
      (List.range' 0 (n - (L + 1))).foldl
        (fun dp l => tileInner arr l (l + (L + 1)) dp) dp := rfl
  rw [heq]
  have hgo' : MidState arr n L (List.range' 0 (n - (L + 1)))
      ((List.range' 0 (n - (L + 1))).foldl
        (fun dp l => tileInner arr l (l + (L + 1)) dp) dp) :=
    midState_congr hgo (fun x => by simp)
  refine midState_dpInv hgo' ?_
  intro l hln
  exact List.mem_range'_1.mpr ⟨by omega, by omega⟩

lemma tileDP_inv (arr : List Nat) (n : Nat) :
    ∀ m, DPInv arr n (m + 1) ((List.range' 2 m).foldl
      (fun dp len => tileMid arr n len dp)
      (List.replicate n (List.replicate n 0)))
  | 0 => by
    refine ⟨Rect_init n, fun l r hr hlr => ?_, fun l r _ => tblGet_init n l r⟩
    rw [tileScore_base (by omega)]
    exact tblGet_init n l r
  | m + 1 => by
    have hcat : List.range' 2 (m + 1) = List.range' 2 m ++ [2 + m] := by
      simpa using @List.range'_concat 1 2 m
    rw [hcat, List.foldl_append, List.foldl_cons, List.foldl_nil]
    have hprev := tileDP_inv arr n m
    have := tileMid_spec arr n (m + 1)
      ((List.range' 2 m).foldl (fun dp len => tileMid arr n len dp)
        (List.replicate n (List.replicate n 0))) hprev
    simpa [show m + 1 + 1 = 2 + m by omega] using this

lemma tileDP_get (arr : List Nat) (n : Nat) (hn : 2 ≤ n) :
    tblGet (tileDP arr n) 0 (n - 1) = tileScore arr 0 (n - 1) := by
  have hinv := tileDP_inv arr n (n - 2)
  have heq : tileDP arr n = (List.range' 2 (n - 2)).foldl
      (fun dp len => tileMid arr n len dp)
      (List.replicate n (List.replicate n 0)) := rfl
  rw [heq]
  exact hinv.2.1 0 (n - 1) (by omega) (by omega)

/-- C3 main lemma: the DP table value returned by `strategic_tile_shatter`
equals the reference recurrence on the padded array. -/
lemma strategic_tile_shatter_eq_score (tiles : List Nat) :
    strategic_tile_shatter tiles =
      tileScore (1 :: tiles ++ [1]) 0 (tiles.length + 1) := by
  have h1 : strategic_tile_shatter tiles =
      tblGet (tileDP (1 :: tiles ++ [1]) ((1 :: tiles ++ [1]).length)) 0
        ((1 :: tiles ++ [1]).length - 1) := rfl
  have h2 := tileDP_get (1 :: tiles ++ [1]) ((1 :: tiles ++ [1]).length)
    (by simp)
  have h3 : (1 :: tiles ++ [1]).length - 1 = tiles.length + 1 := by simp
  rw [h1, h2, h3]

/-- C3: for every sequence of tile multipliers, `strategic_tile_shatter`
returns exactly the value of the reference recurrence `score(0, n-1)` over
the 1-padded array of length `n = m + 2`; in particular
`solve([3,1,5,8]) = 167` and `solve([5]) = 5`. -/
theorem tile_shatter_matches_recurrence :
    (∀ tiles : List Nat, strategic_tile_shatter tiles =
      tileScore (1 :: tiles ++ [1]) 0 (tiles.length + 1)) ∧
    strategic_tile_shatter [3, 1, 5, 8] = 167 ∧
    strategic_tile_shatter [5] = 5 :=
  ⟨strategic_tile_shatter_eq_score, by decide, by decide⟩

/-- C7 counterexample: calling `strategic_tile_shatter` on the empty
sequence does not fail — there is no input validation anywhere in
Q_(2.a).py and `InvalidInputError` does not exist in the repository — it
runs the (empty) DP loops over the padded array `[1, 1]` and returns the
ordinary value `dp[0][1] = 0`. -/
theorem tile_shatter_empty_no_error : strategic_tile_shatter [] = 0 := by
  decide

/-- C7 amended: on the empty sequence `strategic_tile_shatter` returns the
value 0 (the recurrence value of the interval `(0, 1)` of the padded array
`[1, 1]`, which has no interior split point) instead of raising
`InvalidInputError`. -/
theorem tile_shatter_empty_amended :
    strategic_tile_shatter [] = tileScore [1, 1] 0 1 := by
  rw [tileScore_base (by omega)]
  decide

/-- C4: for each of the three strategies, searching with `start = goal`
returns the one-node path `[start]` (with cost 0 for A*, and the one-node
path indeed has total weight 0), and the recorded trace has exactly one
entry, with no neighbor ever expanded. -/
theorem start_eq_goal_trivial (adj : Adj) (h : Nat → Nat) (s : Nat)
    (fuel : Nat) :
    bfs adj s s (fuel + 1) = some (some [s], [⟨s, [s], [], [s]⟩]) ∧
    dfs adj s s (fuel + 1) = some (some [s], [⟨s, [s], [], [s]⟩]) ∧
    astar adj h s s (fuel + 1) =
      some (some [s], 0, [⟨s, [s], h s, 0, h s, [s]⟩]) ∧
    ListWalk adj [s] 0 := by
  refine ⟨?_, ?_, ?_, ListWalk.single s⟩
  · simp [bfs, bfsLoop]
  · simp [dfs, dfsLoop]
  · simp [astar, astarLoop, popMin]

/- ----------------------------------------------------------------
C9: no node is ever expanded twice — trace currents are pairwise distinct.
---------------------------------------------------------------- -/

lemma bfsLoop_nodup (adj : Adj) (goal : Nat) :
    ∀ (fuel : Nat) (q : List (Nat × List Nat)) (cl : List Nat)
      (st : List SStep), (∀ s ∈ st, s.cur ∈ cl) →
      (st.map SStep.cur).Nodup →
      ∀ r st', bfsLoop adj goal fuel q cl st = some (r, st') →
        (st'.map SStep.cur).Nodup
  | 0, _, _, _, _, _, _, _, heq => by simp [bfsLoop] at heq
  | fuel + 1, [], cl, st, _, hnd, r, st', heq => by
    simp [bfsLoop] at heq
    rw [← heq.2]
    exact hnd
  | fuel + 1, (cur, path) :: rest, cl, st, hsub, hnd, r, st', heq => by
    rw [bfsLoop] at heq
    by_cases hcl : cur ∈ cl
    · rw [if_pos hcl] at heq
      exact bfsLoop_nodup adj goal fuel rest cl st hsub hnd r st' heq
    · rw [if_neg hcl] at heq
      have hsub' : ∀ s ∈ st ++ [(⟨cur, path, rest.map Prod.fst, cur :: cl⟩ : SStep)],
          s.cur ∈ cur :: cl := by
        intro s hs
        rcases List.mem_append.mp hs with hs | hs
        · exact List.mem_cons_of_mem _ (hsub s hs)
        · simp at hs
          simp [hs]
      have hnd' : ((st ++ [(⟨cur, path, rest.map Prod.fst, cur :: cl⟩ : SStep)]).map
          SStep.cur).Nodup := by
        rw [List.map_append]
        refine List.Nodup.append hnd (by simp) ?_
        intro a ha hb
        simp at hb
        subst hb
        rcases List.mem_map.mp ha with ⟨s, hs, hscur⟩
        exact hcl (hscur ▸ hsub s hs)
      by_cases hg : cur = goal
      · rw [if_pos hg] at heq
        simp only [Option.some.injEq, Prod.mk.injEq] at heq
        rw [← heq.2]
        exact hnd'
      · rw [if_neg hg] at heq
        exact bfsLoop_nodup adj goal fuel _ _ _ hsub' hnd' r st' heq

lemma dfsLoop_nodup (adj : Adj) (goal : Nat) :
    ∀ (fuel : Nat) (q : List (Nat × List Nat)) (cl : List Nat)
      (st : List SStep), (∀ s ∈ st, s.cur ∈ cl) →
      (st.map SStep.cur).Nodup →
      ∀ r st', dfsLoop adj goal fuel q cl st = some (r, st') →
        (st'.map SStep.cur).Nodup
  | 0, _, _, _, _, _, _, _, heq => by simp [dfsLoop] at heq
  | fuel + 1, [], cl, st, _, hnd, r, st', heq => by
    simp [dfsLoop] at heq
    rw [← heq.2]
    exact hnd
  | fuel + 1, (cur, path) :: rest, cl, st, hsub, hnd, r, st', heq => by
    rw [dfsLoop] at heq
    by_cases hcl : cur ∈ cl
    · rw [if_pos hcl] at heq
      exact dfsLoop_nodup adj goal fuel rest cl st hsub hnd r st' heq
    · rw [if_neg hcl] at heq
      have hsub' : ∀ s ∈ st ++ [(⟨cur, path, rest.map Prod.fst, cur :: cl⟩ : SStep)],
          s.cur ∈ cur :: cl := by
        intro s hs
        rcases List.mem_append.mp hs with hs | hs
        · exact List.mem_cons_of_mem _ (hsub s hs)
        · simp at hs
          simp [hs]
      have hnd' : ((st ++ [(⟨cur, path, rest.map Prod.fst, cur :: cl⟩ : SStep)]).map
          SStep.cur).Nodup := by
        rw [List.map_append]
        refine List.Nodup.append hnd (by simp) ?_
        intro a ha hb
        simp at hb
        subst hb
        rcases List.mem_map.mp ha with ⟨s, hs, hscur⟩
        exact hcl (hscur ▸ hsub s hs)
      by_cases hg : cur = goal
      · rw [if_pos hg] at heq
        simp only [Option.some.injEq, Prod.mk.injEq] at heq
        rw [← heq.2]
        exact hnd'
      · rw [if_neg hg] at heq
        exact dfsLoop_nodup adj goal fuel _ _ _ hsub' hnd' r st' heq

/-- Unfolding of one `astar` loop iteration when the heap is empty. -/
lemma astarLoop_succ_none (adj : Adj) (h : Nat → Nat) (goal : Nat)
    (fuel : Nat) (oq : List AEntry) (gm : Nat → Option Nat)
    (cl : List Nat) (st : List AStep) (hpop : popMin oq = none) :
    astarLoop adj h goal (fuel + 1) oq gm cl st = some (none, 0, st) := by
  rw [astarLoop, hpop]

/-- Unfolding of one `astar` loop iteration on a popped heap entry. -/
lemma astarLoop_succ_some (adj : Adj) (h : Nat → Nat) (goal : Nat)
    (fuel : Nat) (oq : List AEntry) (gm : Nat → Option Nat)
    (cl : List Nat) (st : List AStep) (f gc : Nat) (cur : Nat)
    (path : List Nat) (rest : List AEntry)
    (hpop : popMin oq = some ((f, gc, cur, path), rest)) :
    astarLoop adj h goal (fuel + 1) oq gm cl st =
      if cur ∈ cl then astarLoop adj h goal fuel rest gm cl st
      else if cur = goal then
        some (some path, gc, st ++ [⟨cur, path, f, gc, h cur, cur :: cl⟩])
      else
        astarLoop adj h goal fuel
          (rest ++ (relax h gc path (cur :: cl) (adj cur) gm []).2)
          (relax h gc path (cur :: cl) (adj cur) gm []).1
          (cur :: cl)
          (st ++ [⟨cur, path, f, gc, h cur, cur :: cl⟩]) := by
  rw [astarLoop, hpop]

lemma astarLoop_nodup (adj : Adj) (h : Nat → Nat) (goal : Nat) :
    ∀ (fuel : Nat) (oq : List AEntry) (gm : Nat → Option Nat)
      (cl : List Nat) (st : List AStep), (∀ s ∈ st, s.cur ∈ cl) →
      (st.map AStep.cur).Nodup →
      ∀ r c st', astarLoop adj h goal fuel oq gm cl st = some (r, c, st') →
        (st'.map AStep.cur).Nodup
  | 0, _, _, _, _, _, _, _, _, _, heq => by simp [astarLoop] at heq
  | fuel + 1, oq, gm, cl, st, hsub, hnd, r, c, st', heq => by
    cases hpop : popMin oq with
    | none =>
      rw [astarLoop_succ_none adj h goal fuel oq gm cl st hpop] at heq
      simp at heq
      rw [← heq.2.2]
      exact hnd
    | some pr =>
      obtain ⟨⟨f, gc, cur, path⟩, rest⟩ := pr
      rw [astarLoop_succ_some adj h goal fuel oq gm cl st f gc cur path
        rest hpop] at heq
      by_cases hcl : cur ∈ cl
      · rw [if_pos hcl] at heq
        exact astarLoop_nodup adj h goal fuel rest gm cl st hsub hnd
          r c st' heq
      · rw [if_neg hcl] at heq
        have hsub' : ∀ s ∈ st ++ [(⟨cur, path, f, gc, h cur, cur :: cl⟩ : AStep)],
            s.cur ∈ cur :: cl := by
          intro s hs
          rcases List.mem_append.mp hs with hs | hs
          · exact List.mem_cons_of_mem _ (hsub s hs)
          · simp at hs
            simp [hs]
        have hnd' : ((st ++ [(⟨cur, path, f, gc, h cur, cur :: cl⟩ : AStep)]).map
            AStep.cur).Nodup := by
          rw [List.map_append]
          refine List.Nodup.append hnd (by simp) ?_
          intro a ha hb
          simp at hb
          subst hb
          rcases List.mem_map.mp ha with ⟨s, hs, hscur⟩
          exact hcl (hscur ▸ hsub s hs)
        by_cases hg : cur = goal
        · rw [if_pos hg] at heq
          simp only [Option.some.injEq, Prod.mk.injEq] at heq
          rw [← heq.2.2]
          exact hnd'
        · rw [if_neg hg] at heq
          exact astarLoop_nodup adj h goal fuel _ _ _ _ hsub' hnd'
            r c st' heq

/-- C9: for each strategy, whenever the search loop returns, every graph
node appears at most once as the expanded (`current`) node of the trace:
a popped record whose node is already closed is discarded unexpanded. -/
theorem trace_currents_nodup (adj : Adj) (h : Nat → Nat)
    (start goal : Nat) (fuel : Nat) :
    (∀ r st', bfs adj start goal fuel = some (r, st') →
      (st'.map SStep.cur).Nodup) ∧
    (∀ r st', dfs adj start goal fuel = some (r, st') →
      (st'.map SStep.cur).Nodup) ∧
    (∀ r c st', astar adj h start goal fuel = some (r, c, st') →
      (st'.map AStep.cur).Nodup) := by
  refine ⟨fun r st' heq => ?_, fun r st' heq => ?_, fun r c st' heq => ?_⟩
  · exact bfsLoop_nodup adj goal fuel _ _ _ (by simp) (by simp) r st' heq
  · exact dfsLoop_nodup adj goal fuel _ _ _ (by simp) (by simp) r st' heq
  · exact astarLoop_nodup adj h goal fuel _ _ _ _ (by simp) (by simp)
      r c st' heq

/-- Concrete graph used by the witnesses: the 4-node graph
0 —1— 1, 0 —3— 2, 1 —1— 2, 2 —100— 3 (undirected). -/
def wAdj : Adj := fun v =>
  if v = 0 then [(1, 1), (2, 3)]
  else if v = 1 then [(0, 1), (2, 1)]
  else if v = 2 then [(0, 3), (1, 1), (3, 100)]
  else if v = 3 then [(2, 100)]
  else []

/-- C9 witness: the no-reexpansion theorem applied to a concrete run of
each strategy on the witness graph. -/
theorem trace_currents_nodup_witness :
    ∃ st1 st2 r3 c3 st3,
      bfs wAdj 0 3 20 = some (some [0, 2, 3], st1) ∧
      (st1.map SStep.cur).Nodup ∧
      dfs wAdj 0 3 20 = some (some [0, 1, 2, 3], st2) ∧
      (st2.map SStep.cur).Nodup ∧
      astar wAdj (fun _ => 0) 0 3 20 = some (r3, c3, st3) ∧
      (st3.map AStep.cur).Nodup := by
  have h1 : ∃ st1, bfs wAdj 0 3 20 = some (some [0, 2, 3], st1) :=
    ⟨_, rfl⟩
  have h2 : ∃ st2, dfs wAdj 0 3 20 = some (some [0, 1, 2, 3], st2) :=
    ⟨_, rfl⟩
  have h3 : ∃ r3 c3 st3, astar wAdj (fun _ => 0) 0 3 20 =
      some (r3, c3, st3) := ⟨_, _, _, rfl⟩
  obtain ⟨st1, h1⟩ := h1
  obtain ⟨st2, h2⟩ := h2
  obtain ⟨r3, c3, st3, h3⟩ := h3
  exact ⟨st1, st2, r3, c3, st3, h1,
    (trace_currents_nodup wAdj (fun _ => 0) 0 3 20).1 _ _ h1, h2,
    (trace_currents_nodup wAdj (fun _ => 0) 0 3 20).2.1 _ _ h2, h3,
    (trace_currents_nodup wAdj (fun _ => 0) 0 3 20).2.2 _ _ _ h3⟩

/- ----------------------------------------------------------------
Path and walk helper lemmas.
---------------------------------------------------------------- -/

lemma pathTo_single (adj : Adj) (s : Nat) : PathTo adj s s [s] 0 :=
  ⟨ListWalk.single s, rfl, rfl⟩

lemma listWalk_concat {adj : Adj} :
    ∀ {p : List Nat} {c : Nat}, ListWalk adj p c →
      ∀ {v w : Nat} {cw : Nat}, p.getLast? = some v → (w, cw) ∈ adj v →
        ListWalk adj (p ++ [w]) (c + cw) := by
  intro p c hwalk
  induction hwalk with
  | single u =>
    intro v w cw hlast hedge
    simp at hlast
    subst hlast
    have : (0 : Nat) + cw = cw + 0 := by omega
    rw [this]
    exact ListWalk.cons hedge (ListWalk.single w)
  | cons hedge htail ih =>
    intro v w cw hlast hedge2
    rename_i x y rest cx d
    have hlast' : (y :: rest).getLast? = some v := by
      rw [← hlast]
      exact List.getLast?_cons_cons.symm
    have := ih hlast' hedge2
    have hassoc : cx + d + cw = cx + (d + cw) := by omega
    rw [hassoc]
    exact ListWalk.cons hedge this

lemma pathTo_extend {adj : Adj} {s v : Nat} {p : List Nat} {c : Nat}
    (h : PathTo adj s v p c) {w : Nat} {cw : Nat} (hedge : (w, cw) ∈ adj v) :
    PathTo adj s w (p ++ [w]) (c + cw) := by
  obtain ⟨hwalk, hhead, hlast⟩ := h
  refine ⟨listWalk_concat hwalk hlast hedge, ?_, ?_⟩
  · cases p with
    | nil => simp at hhead
    | cons a rest => simpa using hhead
  · simp

lemma listWalk_walk {adj : Adj} :
    ∀ {p : List Nat} {c : Nat}, ListWalk adj p c →
      ∀ {s t : Nat}, p.head? = some s → p.getLast? = some t →
        ∃ k, Walk adj s t c k := by
  intro p c hwalk
  induction hwalk with
  | single u =>
    intro s t hhead hlast
    simp at hhead hlast
    subst hhead
    subst hlast
    exact ⟨0, Walk.nil _⟩
  | cons hedge htail ih =>
    intro s t hhead hlast
    rename_i x y rest cx d
    have hxs : x = s := by simpa using hhead
    have hlast' : (y :: rest).getLast? = some t := by
      rw [← hlast]
      exact List.getLast?_cons_cons.symm
    obtain ⟨k, hk⟩ := ih rfl hlast'
    exact ⟨k + 1, hxs ▸ Walk.cons hedge hk⟩

lemma pathTo_reachable {adj : Adj} {s t : Nat} {p : List Nat} {c : Nat}
    (h : PathTo adj s t p c) : Reachable adj s t := by
  obtain ⟨k, hk⟩ := listWalk_walk h.1 h.2.1 h.2.2
  exact ⟨c, k, hk⟩

lemma walk_closed {adj : Adj} {cl : List Nat}
    (hclosure : ∀ x ∈ cl, ∀ nc ∈ adj x, nc.1 ∈ cl) :
    ∀ {u v : Nat} {c k : Nat}, Walk adj u v c k → u ∈ cl → v ∈ cl := by
  intro u v c k hwalk
  induction hwalk with
  | nil w => exact fun h => h
  | cons hedge htail ih =>
    rename_i x y z cx d kk
    intro hx
    exact ih (hclosure x hx _ hedge)

lemma pathTo_nonempty {adj : Adj} {s t : Nat} {p : List Nat} {c : Nat}
    (h : PathTo adj s t p c) : p ≠ [] := by
  intro hcon
  rw [hcon] at h
  simp [PathTo] at h

/- ----------------------------------------------------------------
Termination: every search loop succeeds with enough fuel.
---------------------------------------------------------------- -/

/-- Upper bound for the number of entries one expansion can push. -/
def maxDegList (adj : Adj) (l : List Nat) : Nat :=
  (l.map (fun v => (adj v).length)).foldr max 0

lemma le_maxDegList {adj : Adj} {l : List Nat} {v : Nat} (hv : v ∈ l) :
    (adj v).length ≤ maxDegList adj l := by
  unfold maxDegList
  induction l with
  | nil => simp at hv
  | cons a l ih =>
    rcases List.mem_cons.mp hv with rfl | hv
    · simp only [List.map_cons, List.foldr_cons]
      exact le_max_left _ _
    · simp only [List.map_cons, List.foldr_cons]
      exact le_max_of_le_right (ih hv)

lemma nodup_subset_length {l l' : List Nat} (hnd : l.Nodup)
    (hsub : ∀ x ∈ l, x ∈ l') : l.length ≤ l'.length := by
  classical
  have h1 : l.toFinset.card = l.length := List.toFinset_card_of_nodup hnd
  have h2 : l.toFinset ⊆ l'.toFinset := by
    intro x hx
    rw [List.mem_toFinset] at hx ⊢
    exact hsub x hx
  calc l.length = l.toFinset.card := h1.symm
    _ ≤ l'.toFinset.card := Finset.card_le_card h2
    _ ≤ l'.length := l'.toFinset_card_le

/- ----------------------------------------------------------------
popMin lemmas: the popped entry is a member, the rest is a permutation of
the remainder, and the popped entry has the least f-value.
---------------------------------------------------------------- -/

lemma pathLe_total : ∀ a b : List Nat, pathLe a b = true ∨ pathLe b a = true
  | [], _ => Or.inl rfl
  | _ :: _, [] => Or.inr rfl
  | a :: as_, b :: bs => by
    rcases Nat.lt_trichotomy a b with h | h | h
    · left
      simp [pathLe, h]
    · subst h
      rcases pathLe_total as_ bs with ht | ht
      · left
        simpa [pathLe] using ht
      · right
        simpa [pathLe] using ht
    · right
      simp [pathLe, h]

lemma entryLe_total (a b : AEntry) : entryLe a b = true ∨ entryLe b a = true := by
  unfold entryLe
  rcases Nat.lt_trichotomy a.1 b.1 with h | h | h
  · left
    simp [h]
  · rcases Nat.lt_trichotomy a.2.1 b.2.1 with h2 | h2 | h2
    · left
      simp [h, h2, Nat.lt_irrefl]
    · rcases Nat.lt_trichotomy a.2.2.1 b.2.2.1 with h3 | h3 | h3
      · left
        simp [h, h2, h3, Nat.lt_irrefl]
      · rcases pathLe_total a.2.2.2 b.2.2.2 with h4 | h4
        · left
          simp [h, h2, h3, Nat.lt_irrefl, h4]
        · right
          simp [h, h2, h3, Nat.lt_irrefl, h4]
      · right
        simp [h, h2, h3, Nat.lt_irrefl]
    · right
      simp [h, h2, Nat.lt_irrefl]
  · right
    simp [h]

lemma pathLe_trans : ∀ {a b c : List Nat},
    pathLe a b = true → pathLe b c = true → pathLe a c = true
  | [], _, _, _, _ => rfl
  | _ :: _, [], _, h1, _ => by simp [pathLe] at h1
  | _ :: _, _ :: _, [], _, h2 => by simp [pathLe] at h2
  | a :: as_, b :: bs, c :: cs, h1, h2 => by
    by_cases hab : a < b
    · have hbc : b ≤ c := by
        by_cases hbc' : b < c
        · omega
        · by_cases hcb : c < b
          · simp [pathLe, hbc', hcb] at h2
          · omega
      have hac : a < c := by omega
      simp [pathLe, hac]
    · have hba : ¬ b < a := by
        intro hcon
        simp [pathLe, hab, hcon] at h1
      have heq : a = b := by omega
      subst heq
      have h1' : pathLe as_ bs = true := by simpa [pathLe, hab] using h1
      by_cases hac : a < c
      · simp [pathLe, hac]
      · have hca : ¬ c < a := by
          intro hcon
          simp [pathLe, hac, hcon] at h2
        have h2' : pathLe bs cs = true := by simpa [pathLe, hac, hca] using h2
        simp [pathLe, hac, hca, pathLe_trans h1' h2']

lemma entryLe_trans {a b c : AEntry} (h1 : entryLe a b = true)
    (h2 : entryLe b c = true) : entryLe a c = true := by
  obtain ⟨a1, a2, a3, a4⟩ := a
  obtain ⟨b1, b2, b3, b4⟩ := b
  obtain ⟨c1, c2, c3, c4⟩ := c
  by_cases e1 : a1 < b1
  · by_cases f1 : b1 < c1
    · simp [entryLe, show a1 < c1 by omega]
    · by_cases g1 : c1 < b1
      · simp [entryLe, f1, g1] at h2
      · simp [entryLe, show a1 < c1 by omega]
  · by_cases e1' : b1 < a1
    · simp [entryLe, e1, e1'] at h1
    · have hab : a1 = b1 := by omega
      subst hab
      by_cases f1 : a1 < c1
      · simp [entryLe, f1]
      · by_cases g1 : c1 < a1
        · simp [entryLe, f1, g1] at h2
        · have hac : a1 = c1 := by omega
          subst hac
          simp only [entryLe, lt_irrefl, if_false] at h1 h2 ⊢
          by_cases e2 : a2 < b2
          · by_cases f2 : b2 < c2
            · simp [show a2 < c2 by omega]
            · by_cases g2 : c2 < b2
              · simp [f2, g2] at h2
              · simp [show a2 < c2 by omega]
          · by_cases e2' : b2 < a2
            · simp [e2, e2'] at h1
            · have hab2 : a2 = b2 := by omega
              subst hab2
              by_cases f2 : a2 < c2
              · simp [f2]
              · by_cases g2 : c2 < a2
                · simp [f2, g2] at h2
                · have hac2 : a2 = c2 := by omega
                  subst hac2
                  simp only [lt_irrefl, if_false] at h1 h2 ⊢
                  by_cases e3 : a3 < b3
                  · by_cases f3 : b3 < c3
                    · simp [show a3 < c3 by omega]
                    · by_cases g3 : c3 < b3
                      · simp [f3, g3] at h2
                      · simp [show a3 < c3 by omega]
                  · by_cases e3' : b3 < a3
                    · simp [e3, e3'] at h1
                    · have hab3 : a3 = b3 := by omega
                      subst hab3
                      by_cases f3 : a3 < c3
                      · simp [f3]
                      · by_cases g3 : c3 < a3
                        · simp [f3, g3] at h2
                        · have hac3 : a3 = c3 := by omega
                          subst hac3
                          simp only [lt_irrefl, if_false] at h1 h2 ⊢
                          exact pathLe_trans h1 h2

lemma entryLe_fst {a b : AEntry} (h : entryLe a b = true) : a.1 ≤ b.1 := by
  unfold entryLe at h
  rcases Nat.lt_trichotomy a.1 b.1 with h1 | h1 | h1
  · omega
  · omega
  · simp [Nat.lt_asymm h1, h1] at h

lemma popMin_cons_none {xs : List AEntry} (x : AEntry)
    (hrec : popMin xs = none) : popMin (x :: xs) = some (x, []) := by
  rw [popMin, hrec]

lemma popMin_cons_some {xs : List AEntry} (x m : AEntry)
    {rest : List AEntry} (hrec : popMin xs = some (m, rest)) :
    popMin (x :: xs) =
      if entryLe x m then some (x, xs) else some (m, x :: rest) := by
  rw [popMin, hrec]

lemma popMin_ne_none (x : AEntry) (xs : List AEntry) :
    popMin (x :: xs) ≠ none := by
  cases hrec : popMin xs with
  | none =>
    rw [popMin_cons_none x hrec]
    simp
  | some pr =>
    obtain ⟨m, rest⟩ := pr
    rw [popMin_cons_some x m hrec]
    by_cases hle : entryLe x m
    · rw [if_pos hle]
      simp
    · rw [if_neg hle]
      simp

lemma popMin_perm :
    ∀ {oq : List AEntry} {e : AEntry} {rest : List AEntry},
      popMin oq = some (e, rest) → oq.Perm (e :: rest)
  | [], e, rest, heq => by simp [popMin] at heq
  | x :: xs, e, rest, heq => by
    cases hrec : popMin xs with
    | none =>
      have hnil : xs = [] := by
        cases xs with
        | nil => rfl
        | cons y ys => exact absurd hrec (popMin_ne_none y ys)
      subst hnil
      rw [popMin_cons_none x hrec] at heq
      simp only [Option.some.injEq, Prod.mk.injEq] at heq
      obtain ⟨rfl, rfl⟩ := heq
      exact List.Perm.refl _
    | some pr =>
      obtain ⟨m, rest'⟩ := pr
      rw [popMin_cons_some x m hrec] at heq
      by_cases hle : entryLe x m
      · rw [if_pos hle] at heq
        simp only [Option.some.injEq, Prod.mk.injEq] at heq
        obtain ⟨rfl, rfl⟩ := heq
        exact List.Perm.refl _
      · rw [if_neg hle] at heq
        simp only [Option.some.injEq, Prod.mk.injEq] at heq
        obtain ⟨rfl, rfl⟩ := heq
        have hperm := popMin_perm hrec
        exact (hperm.cons x).trans (List.Perm.swap m x rest')

lemma popMin_le :
    ∀ {oq : List AEntry} {e : AEntry} {rest : List AEntry},
      popMin oq = some (e, rest) → ∀ x ∈ oq, entryLe e x = true
  | [], e, rest, heq => by simp [popMin] at heq
  | x :: xs, e, rest, heq => by
    cases hrec : popMin xs with
    | none =>
      have hnil : xs = [] := by
        cases xs with
        | nil => rfl
        | cons y ys => exact absurd hrec (popMin_ne_none y ys)
      subst hnil
      rw [popMin_cons_none x hrec] at heq
      simp only [Option.some.injEq, Prod.mk.injEq] at heq
      obtain ⟨rfl, rfl⟩ := heq
      intro y hy
      simp at hy
      subst hy
      rcases entryLe_total y y with h | h <;> exact h
    | some pr =>
      obtain ⟨m, rest'⟩ := pr
      have hmle := popMin_le hrec
      rw [popMin_cons_some x m hrec] at heq
      by_cases hle : entryLe x m
      · rw [if_pos hle] at heq
        simp only [Option.some.injEq, Prod.mk.injEq] at heq
        obtain ⟨rfl, rfl⟩ := heq
        intro y hy
        rcases List.mem_cons.mp hy with rfl | hy
        · rcases entryLe_total y y with h | h <;> exact h
        · exact entryLe_trans hle (hmle y hy)
      · rw [if_neg hle] at heq
        simp only [Option.some.injEq, Prod.mk.injEq] at heq
        obtain ⟨rfl, rfl⟩ := heq
        intro y hy
        rcases List.mem_cons.mp hy with rfl | hy
        · rcases entryLe_total y m with h | h
          · exact absurd h hle
          · exact h
        · exact hmle y hy

lemma popMin_fst_le {oq : List AEntry} {e : AEntry} {rest : List AEntry}
    (heq : popMin oq = some (e, rest)) : ∀ x ∈ oq, e.1 ≤ x.1 :=
  fun x hx => entryLe_fst (popMin_le heq x hx)

/- ----------------------------------------------------------------
DFS: loop invariant, soundness, completeness, termination.
---------------------------------------------------------------- -/

lemma mem_pushes_iff {l : List (Nat × Nat)} {le : Nat × Nat → Nat × Nat → Prop}
    [DecidableRel le] {cl' : List Nat} {path : List Nat} {e : Nat × List Nat} :
    e ∈ ((l.insertionSort le).filter (fun p => p.1 ∉ cl')).map
        (fun p => (p.1, path ++ [p.1])) ↔
      ∃ nc, nc ∈ l ∧ nc.1 ∉ cl' ∧ e = (nc.1, path ++ [nc.1]) := by
  simp only [List.mem_map, List.mem_filter, List.mem_insertionSort,
    decide_not, Bool.not_eq_true', decide_eq_false_iff_not]
  constructor
  · rintro ⟨nc, ⟨hmem, hncl⟩, rfl⟩
    exact ⟨nc, hmem, hncl, rfl⟩
  · rintro ⟨nc, hmem, hncl, rfl⟩
    exact ⟨nc, ⟨hmem, hncl⟩, rfl⟩

/-- Invariant of the DFS (and, ignoring order, BFS) loop state: queue
entries are valid paths over known nodes, the closed set is duplicate-free
over known nodes, every neighbor of a closed node is closed or queued, the
start is closed or queued, and the goal is never closed. -/
structure DInv (adj : Adj) (nodes : List Nat) (start goal : Nat)
    (q : List (Nat × List Nat)) (cl : List Nat) : Prop where
  qvalid : ∀ e ∈ q, ∃ c, PathTo adj start e.1 e.2 c
  clnodup : cl.Nodup
  clsub : ∀ u ∈ cl, u ∈ start :: nodes
  qsub : ∀ e ∈ q, e.1 ∈ start :: nodes
  front : ∀ u ∈ cl, ∀ nc ∈ adj u, nc.1 ∈ cl ∨ ∃ p, (nc.1, p) ∈ q
  startin : start ∈ cl ∨ ∃ p, (start, p) ∈ q
  goalout : goal ∉ cl

lemma DInv.dinit (adj : Adj) (nodes : List Nat) (start goal : Nat)
    (hg : goal ∉ ([] : List Nat)) :
    DInv adj nodes start goal [(start, [start])] [] where
  qvalid := by
    intro e he
    simp at he
    subst he
    exact ⟨0, pathTo_single adj start⟩
  clnodup := List.nodup_nil
  clsub := by simp
  qsub := by
    intro e he
    simp at he
    simp [he]
  front := by simp
  startin := Or.inr ⟨[start], by simp⟩
  goalout := hg

lemma DInv.dstale {adj : Adj} {nodes : List Nat} {start goal cur : Nat}
    {path : List Nat} {rest : List (Nat × List Nat)} {cl : List Nat}
    (hinv : DInv adj nodes start goal ((cur, path) :: rest) cl)
    (hcl : cur ∈ cl) : DInv adj nodes start goal rest cl where
  qvalid := fun e he => hinv.qvalid e (List.mem_cons_of_mem _ he)
  clnodup := hinv.clnodup
  clsub := hinv.clsub
  qsub := fun e he => hinv.qsub e (List.mem_cons_of_mem _ he)
  front := by
    intro u hu nc hnc
    rcases hinv.front u hu nc hnc with h | ⟨p, hp⟩
    · exact Or.inl h
    · rcases List.mem_cons.mp hp with hp' | hp'
      · have : nc.1 = cur := congrArg Prod.fst hp'
        exact Or.inl (this ▸ hcl)
      · exact Or.inr ⟨p, hp'⟩
  startin := by
    rcases hinv.startin with h | ⟨p, hp⟩
    · exact Or.inl h
    · rcases List.mem_cons.mp hp with hp' | hp'
      · have : start = cur := congrArg Prod.fst hp'
        exact Or.inl (this ▸ hcl)
      · exact Or.inr ⟨p, hp'⟩
  goalout := hinv.goalout

lemma DInv.dexpand {adj : Adj} {nodes : List Nat} {start goal cur : Nat}
    {path : List Nat} {rest : List (Nat × List Nat)} {cl : List Nat}
    (hwf : WF adj nodes)
    (hinv : DInv adj nodes start goal ((cur, path) :: rest) cl)
    (hcl : cur ∉ cl) (hg : cur ≠ goal) (le : Nat × Nat → Nat × Nat → Prop)
    [DecidableRel le] (q' : List (Nat × List Nat))
    (hq' : ∀ e, e ∈ q' ↔ e ∈ rest ∨
      e ∈ (((adj cur).insertionSort le).filter
        (fun p => p.1 ∉ cur :: cl)).map (fun p => (p.1, path ++ [p.1]))) :
    DInv adj nodes start goal q' (cur :: cl) where
  qvalid := by
    intro e he
    rcases (hq' e).mp he with he | he
    · exact hinv.qvalid e (List.mem_cons_of_mem _ he)
    · rcases mem_pushes_iff.mp he with ⟨nc, hmem, _, rfl⟩
      obtain ⟨c, hc⟩ := hinv.qvalid (cur, path) (by simp)
      exact ⟨c + nc.2, pathTo_extend hc hmem⟩
  clnodup := List.nodup_cons.mpr ⟨hcl, hinv.clnodup⟩
  clsub := by
    intro u hu
    rcases List.mem_cons.mp hu with rfl | hu
    · exact hinv.qsub (u, path) (by simp)
    · exact hinv.clsub u hu
  qsub := by
    intro e he
    rcases (hq' e).mp he with he | he
    · exact hinv.qsub e (List.mem_cons_of_mem _ he)
    · rcases mem_pushes_iff.mp he with ⟨nc, hmem, _, rfl⟩
      exact List.mem_cons_of_mem _ (hwf cur nc hmem)
  front := by
    intro u hu nc hnc
    rcases List.mem_cons.mp hu with rfl | hu
    · by_cases hmem : nc.1 ∈ u :: cl
      · exact Or.inl hmem
      · refine Or.inr ⟨path ++ [nc.1], (hq' _).mpr (Or.inr ?_)⟩
        exact mem_pushes_iff.mpr ⟨nc, hnc, hmem, rfl⟩
    · rcases hinv.front u hu nc hnc with h | ⟨p, hp⟩
      · exact Or.inl (List.mem_cons_of_mem _ h)
      · rcases List.mem_cons.mp hp with hp' | hp'
        · have : nc.1 = cur := congrArg Prod.fst hp'
          exact Or.inl (this ▸ List.mem_cons_self _ _)
        · exact Or.inr ⟨p, (hq' _).mpr (Or.inl hp')⟩
  startin := by
    rcases hinv.startin with h | ⟨p, hp⟩
    · exact Or.inl (List.mem_cons_of_mem _ h)
    · rcases List.mem_cons.mp hp with hp' | hp'
      · have : start = cur := congrArg Prod.fst hp'
        exact Or.inl (this ▸ List.mem_cons_self _ _)
      · exact Or.inr ⟨p, (hq' _).mpr (Or.inl hp')⟩
  goalout := by
    intro hcon
    rcases List.mem_cons.mp hcon with rfl | hcon
    · exact hg rfl
    · exact hinv.goalout hcon

lemma DInv.dno_path {adj : Adj} {nodes : List Nat} {start goal : Nat}
    {cl : List Nat} (hinv : DInv adj nodes start goal [] cl) :
    ¬ Reachable adj start goal := by
  rintro ⟨c, k, hwalk⟩
  have hstart : start ∈ cl := by
    rcases hinv.startin with h | ⟨p, hp⟩
    · exact h
    · exact absurd hp (List.not_mem_nil _)
  have hclosure : ∀ x ∈ cl, ∀ nc ∈ adj x, nc.1 ∈ cl := by
    intro x hx nc hnc
    rcases hinv.front x hx nc hnc with h | ⟨p, hp⟩
    · exact h
    · exact absurd hp (List.not_mem_nil _)
  exact hinv.goalout (walk_closed hclosure hwalk hstart)

lemma dfsLoop_sound (adj : Adj) (nodes : List Nat) (start goal : Nat)
    (hwf : WF adj nodes) :
    ∀ (fuel : Nat) (q : List (Nat × List Nat)) (cl : List Nat)
      (st : List SStep), DInv adj nodes start goal q cl →
      ∀ r st', dfsLoop adj goal fuel q cl st = some (r, st') →
        (∀ p, r = some p → ∃ c, PathTo adj start goal p c) ∧
        (r = none → ¬ Reachable adj start goal)
  | 0, _, _, _, _, _, _, heq => by simp [dfsLoop] at heq
  | fuel + 1, [], cl, st, hinv, r, st', heq => by
    simp [dfsLoop] at heq
    refine ⟨fun p hp => ?_, fun _ => hinv.dno_path⟩
    rw [← heq.1] at hp
    simp at hp
  | fuel + 1, (cur, path) :: rest, cl, st, hinv, r, st', heq => by
    rw [dfsLoop] at heq
    by_cases hcl : cur ∈ cl
    · rw [if_pos hcl] at heq
      exact dfsLoop_sound adj nodes start goal hwf fuel rest cl st
        (hinv.dstale hcl) r st' heq
    · rw [if_neg hcl] at heq
      by_cases hg : cur = goal
      · rw [if_pos hg] at heq
        simp only [Option.some.injEq, Prod.mk.injEq] at heq
        refine ⟨fun p hp => ?_, fun hn => ?_⟩
        · rw [← heq.1] at hp
          simp at hp
          obtain ⟨c, hc⟩ := hinv.qvalid (cur, path) (by simp)
          subst hg
          rw [← hp]
          exact ⟨c, hc⟩
        · rw [← heq.1] at hn
          simp at hn
      · rw [if_neg hg] at heq
        refine dfsLoop_sound adj nodes start goal hwf fuel _ _ _
          (hinv.dexpand hwf hcl hg (fun a b => b.1 ≤ a.1) _ (fun e => ?_))
          r st' heq
        simp only [List.mem_append, List.mem_reverse]
        tauto

lemma dfsLoop_term (adj : Adj) (nodes : List Nat) (start goal : Nat)
    (hwf : WF adj nodes) :
    ∀ (μ : Nat) (q : List (Nat × List Nat)) (cl : List Nat) (st : List SStep),
      DInv adj nodes start goal q cl →
      (nodes.length + 1 - cl.length) *
        (maxDegList adj (start :: nodes) + 1) + q.length ≤ μ →
      ∃ fuel r st', dfsLoop adj goal fuel q cl st = some (r, st') := by
  intro μ
  induction μ with
  | zero =>
    intro q cl st hinv hμ
    cases q with
    | nil => exact ⟨1, none, st, by rw [dfsLoop]⟩
    | cons e rest => simp at hμ
  | succ μ ih =>
    intro q cl st hinv hμ
    cases q with
    | nil => exact ⟨1, none, st, by rw [dfsLoop]⟩
    | cons e rest =>
      obtain ⟨cur, path⟩ := e
      by_cases hcl : cur ∈ cl
      · obtain ⟨fuel, r, st', hrun⟩ := ih rest cl st (hinv.dstale hcl)
          (by simp at hμ ⊢; omega)
        exact ⟨fuel + 1, r, st', by rw [dfsLoop, if_pos hcl]; exact hrun⟩
      · by_cases hg : cur = goal
        · refine ⟨1, some path,
            st ++ [⟨cur, path, rest.map Prod.fst, cur :: cl⟩], ?_⟩
          rw [dfsLoop, if_neg hcl, if_pos hg]
        · have hcur : cur ∈ start :: nodes := hinv.qsub (cur, path) (by simp)
          have hlen : cl.length + 1 ≤ nodes.length + 1 := by
            have := nodup_subset_length
              (List.nodup_cons.mpr ⟨hcl, hinv.clnodup⟩)
              (fun x hx => by
                rcases List.mem_cons.mp hx with rfl | hx
                · exact hcur
                · exact hinv.clsub x hx)
            simpa using this
          have hpush : ((((adj cur).insertionSort
              (fun a b => b.1 ≤ a.1)).filter
                (fun p => p.1 ∉ cur :: cl)).map
                  (fun p => (p.1, path ++ [p.1]))).length ≤
              maxDegList adj (start :: nodes) := by
            rw [List.length_map]
            calc (((adj cur).insertionSort (fun a b => b.1 ≤ a.1)).filter
                  (fun p => p.1 ∉ cur :: cl)).length
                ≤ ((adj cur).insertionSort (fun a b => b.1 ≤ a.1)).length :=
                  List.length_filter_le _ _
              _ = (adj cur).length :=
                  (List.perm_insertionSort _ _).length_eq
              _ ≤ maxDegList adj (start :: nodes) := le_maxDegList hcur
          have hmul : (nodes.length + 1 - cl.length) *
              (maxDegList adj (start :: nodes) + 1) =
              (nodes.length + 1 - (cl.length + 1)) *
                (maxDegList adj (start :: nodes) + 1) +
                (maxDegList adj (start :: nodes) + 1) := by
            rw [show nodes.length + 1 - cl.length =
              (nodes.length + 1 - (cl.length + 1)) + 1 by omega,
              Nat.succ_mul]
          obtain ⟨fuel, r, st', hrun⟩ := ih
            (((((adj cur).insertionSort (fun a b => b.1 ≤ a.1)).filter
              (fun p => p.1 ∉ cur :: cl)).map
                (fun p => (p.1, path ++ [p.1]))).reverse ++ rest)
            (cur :: cl)
            (st ++ [⟨cur, path, rest.map Prod.fst, cur :: cl⟩])
            (hinv.dexpand hwf hcl hg (fun a b => b.1 ≤ a.1) _ (fun e => by
              simp only [List.mem_append, List.mem_reverse]
              tauto))
            (by
              simp only [List.length_append, List.length_reverse,
                List.length_cons]
              simp only [List.length_cons] at hμ
              omega)
          exact ⟨fuel + 1, r, st', by
            rw [dfsLoop, if_neg hcl, if_neg hg]
            exact hrun⟩

/-- C6: on a finite graph, DFS terminates (its loop needs only finitely
much fuel), and whenever some path from start to goal exists, any
terminating run returns a valid path (consecutive nodes adjacent, from
start to goal) rather than the no-path sentinel. -/
theorem dfs_terminates_and_finds_path (adj : Adj) (nodes : List Nat)
    (start goal : Nat) (hwf : WF adj nodes) :
    (∃ fuel r st', dfs adj start goal fuel = some (r, st')) ∧
    (Reachable adj start goal →
      ∀ fuel r st', dfs adj start goal fuel = some (r, st') →
        ∃ p c, r = some p ∧ PathTo adj start goal p c) := by
  constructor
  · exact dfsLoop_term adj nodes start goal hwf _ _ _ []
      (DInv.dinit adj nodes start goal (by simp)) (le_refl _)
  · intro hreach fuel r st' heq
    have hs := dfsLoop_sound adj nodes start goal hwf fuel _ _ _
      (DInv.dinit adj nodes start goal (by simp)) r st' heq
    cases r with
    | none => exact absurd hreach (hs.2 rfl)
    | some p =>
      obtain ⟨c, hc⟩ := hs.1 p rfl
      exact ⟨p, c, rfl, hc⟩

lemma wAdj_wf : WF wAdj [0, 1, 2, 3] := by
  intro v p hp
  unfold wAdj at hp
  split_ifs at hp
  · simp at hp
    rcases hp with rfl | rfl <;> simp
  · simp at hp
    rcases hp with rfl | rfl <;> simp
  · simp at hp
    rcases hp with rfl | rfl | rfl <;> simp
  · simp at hp
    rw [hp]
    simp
  · simp at hp

lemma wAdj_reach : Reachable wAdj 0 3 :=
  ⟨3 + (100 + 0), 1 + 1,
    Walk.cons (w := 2) (by decide) (Walk.cons (by decide) (Walk.nil 3))⟩

/-- C6 witness: the DFS theorem applied to the concrete witness graph,
where start 0 and goal 3 are connected. -/
theorem dfs_terminates_witness :
    (∃ fuel r st', dfs wAdj 0 3 fuel = some (r, st')) ∧
    (∃ st2 p c, dfs wAdj 0 3 20 = some (some p, st2) ∧
      PathTo wAdj 0 3 p c) := by
  have hw := dfs_terminates_and_finds_path wAdj [0, 1, 2, 3] 0 3 wAdj_wf
  refine ⟨hw.1, ?_⟩
  have h2 : ∃ st2, dfs wAdj 0 3 20 = some (some [0, 1, 2, 3], st2) :=
    ⟨_, rfl⟩
  obtain ⟨st2, h2⟩ := h2
  obtain ⟨p, c, hp, hc⟩ := hw.2 wAdj_reach 20 (some [0, 1, 2, 3]) st2 h2
  simp only [Option.some.injEq] at hp
  exact ⟨st2, p, c, by rw [h2, hp], hc⟩

/- ----------------------------------------------------------------
BFS: loop invariant with FIFO level structure, hop-minimality.
---------------------------------------------------------------- -/

/-- Splitting a walk at the boundary of a set containing its source but
not its target: some edge of the walk crosses the boundary. -/
lemma walk_split {adj : Adj} (S : List Nat) :
    ∀ {u v c k}, Walk adj u v c k → u ∈ S → v ∉ S →
      ∃ x y cxy c1 k1 c2 k2, x ∈ S ∧ y ∉ S ∧ (y, cxy) ∈ adj x ∧
        Walk adj u x c1 k1 ∧ Walk adj y v c2 k2 ∧
        c1 + cxy + c2 = c ∧ k1 + 1 + k2 = k := by
  intro u v c k hwalk
  induction hwalk with
  | nil w =>
    intro hu hv
    exact absurd hu hv
  | cons hedge htail ih =>
    rename_i u w v cw d kk
    intro hu hv
    by_cases hw : w ∈ S
    · obtain ⟨x, y, cxy, c1, k1, c2, k2, hx, hy, he, h1, h2, hc, hk⟩ :=
        ih hw hv
      exact ⟨x, y, cxy, cw + c1, k1 + 1, c2, k2, hx, hy, he,
        Walk.cons hedge h1, h2, by omega, by omega⟩
    · exact ⟨u, w, cw, 0, 0, d, kk, hu, hw, hedge, Walk.nil u, htail,
        by omega, by omega⟩

/-- Invariant of the BFS loop state.  On top of the structural facts the
FIFO queue is sorted by path length and spans at most two levels, every
recorded expansion used a hop-minimal path, and every frontier edge out of
an expanded node has a queue entry at most one level deeper. -/
structure BInv (adj : Adj) (nodes : List Nat) (start goal : Nat)
    (q : List (Nat × List Nat)) (cl : List Nat) (st : List SStep) : Prop where
  qvalid : ∀ e ∈ q, ∃ c, PathTo adj start e.1 e.2 c
  clnodup : cl.Nodup
  clsub : ∀ u ∈ cl, u ∈ start :: nodes
  qsub : ∀ e ∈ q, e.1 ∈ start :: nodes
  sorted : List.Pairwise (fun a b : Nat × List Nat =>
    a.2.length ≤ b.2.length) q
  twolevel : ∀ a ∈ q, ∀ b ∈ q, b.2.length ≤ a.2.length + 1
  settled : ∀ s ∈ st, s.cur ∈ cl ∧ (∃ c, PathTo adj start s.cur s.path c) ∧
    ∀ c' k, Walk adj start s.cur c' k → s.path.length ≤ k + 1
  stepscl : ∀ u ∈ cl, ∃ s ∈ st, s.cur = u
  frontq : ∀ s ∈ st, ∀ nc ∈ adj s.cur, nc.1 ∈ cl ∨
    ∃ p, (nc.1, p) ∈ q ∧ p.length ≤ s.path.length + 1
  startq : start ∈ cl ∨ (start, [start]) ∈ q
  goalout : goal ∉ cl

lemma BInv.binit (adj : Adj) (nodes : List Nat) (start goal : Nat)
    (hg : goal ∉ ([] : List Nat)) :
    BInv adj nodes start goal [(start, [start])] [] [] where
  qvalid := by
    intro e he
    simp at he
    subst he
    exact ⟨0, pathTo_single adj start⟩
  clnodup := List.nodup_nil
  clsub := by simp
  qsub := by
    intro e he
    simp at he
    simp [he]
  sorted := by simp
  twolevel := by
    intro a ha b hb
    simp at ha hb
    subst ha
    subst hb
    simp
  settled := by simp
  stepscl := by simp
  frontq := by simp
  startq := Or.inr (by simp)
  goalout := hg

/-- The popped front of the sorted BFS queue, when not yet closed, carries
a hop-minimal path to its node. -/
lemma BInv.pop_min {adj : Adj} {nodes : List Nat} {start goal cur : Nat}
    {path : List Nat} {rest : List (Nat × List Nat)} {cl : List Nat}
    {st : List SStep}
    (hinv : BInv adj nodes start goal ((cur, path) :: rest) cl st)
    (hcl : cur ∉ cl) :
    ∀ c k, Walk adj start cur c k → path.length ≤ k + 1 := by
  intro c k hwalk
  have hmin : ∀ e ∈ (cur, path) :: rest, path.length ≤ e.2.length := by
    intro e he
    rcases List.mem_cons.mp he with rfl | he
    · exact le_refl _
    · exact (List.pairwise_cons.mp hinv.sorted).1 e he
  by_cases hstart : start ∈ cl
  · obtain ⟨x, y, cxy, c1, k1, c2, k2, hx, hy, hedge, hw1, hw2, hc, hk⟩ :=
      walk_split cl hwalk hstart hcl
    obtain ⟨s, hs, hscur⟩ := hinv.stepscl x hx
    obtain ⟨-, -, hsmin⟩ := hinv.settled s hs
    have hs1 : s.path.length ≤ k1 + 1 := hsmin c1 k1 (hscur ▸ hw1)
    rcases hinv.frontq s hs (y, cxy) (hscur ▸ hedge) with hycl | ⟨p, hp, hlp⟩
    · exact absurd hycl hy
    · calc path.length ≤ p.length := hmin (y, p) hp
        _ ≤ s.path.length + 1 := hlp
        _ ≤ k1 + 2 := by omega
        _ ≤ k + 1 := by omega
  · have hstartq : (start, [start]) ∈ (cur, path) :: rest :=
      hinv.startq.resolve_left hstart
    have := hmin (start, [start]) hstartq
    simp at this
    omega

lemma BInv.bstale {adj : Adj} {nodes : List Nat} {start goal cur : Nat}
    {path : List Nat} {rest : List (Nat × List Nat)} {cl : List Nat}
    {st : List SStep}
    (hinv : BInv adj nodes start goal ((cur, path) :: rest) cl st)
    (hcl : cur ∈ cl) : BInv adj nodes start goal rest cl st where
  qvalid := fun e he => hinv.qvalid e (List.mem_cons_of_mem _ he)
  clnodup := hinv.clnodup
  clsub := hinv.clsub
  qsub := fun e he => hinv.qsub e (List.mem_cons_of_mem _ he)
  sorted := (List.pairwise_cons.mp hinv.sorted).2
  twolevel := fun a ha b hb =>
    hinv.twolevel a (List.mem_cons_of_mem _ ha) b (List.mem_cons_of_mem _ hb)
  settled := hinv.settled
  stepscl := hinv.stepscl
  frontq := by
    intro s hs nc hnc
    rcases hinv.frontq s hs nc hnc with h | ⟨p, hp, hlp⟩
    · exact Or.inl h
    · rcases List.mem_cons.mp hp with hp' | hp'
      · have : nc.1 = cur := congrArg Prod.fst hp'
        exact Or.inl (this ▸ hcl)
      · exact Or.inr ⟨p, hp', hlp⟩
  startq := by
    rcases hinv.startq with h | hp
    · exact Or.inl h
    · rcases List.mem_cons.mp hp with hp' | hp'
      · have : start = cur := congrArg Prod.fst hp'
        exact Or.inl (this ▸ hcl)
      · exact Or.inr hp'
  goalout := hinv.goalout

lemma BInv.bexpand {adj : Adj} {nodes : List Nat} {start goal cur : Nat}
    {path : List Nat} {rest : List (Nat × List Nat)} {cl : List Nat}
    {st : List SStep} (hwf : WF adj nodes)
    (hinv : BInv adj nodes start goal ((cur, path) :: rest) cl st)
    (hcl : cur ∉ cl) (hg : cur ≠ goal) :
    BInv adj nodes start goal
      (rest ++ (((adj cur).insertionSort (fun a b => a.1 ≤ b.1)).filter
        (fun p => p.1 ∉ cur :: cl)).map (fun p => (p.1, path ++ [p.1])))
      (cur :: cl)
      (st ++ [⟨cur, path, rest.map Prod.fst, cur :: cl⟩]) := by
  have hvalid0 : ∃ c, PathTo adj start cur path c :=
    hinv.qvalid (cur, path) (by simp)
  have hminq : ∀ e ∈ (cur, path) :: rest, path.length ≤ e.2.length := by
    intro e he
    rcases List.mem_cons.mp he with rfl | he
    · exact le_refl _
    · exact (List.pairwise_cons.mp hinv.sorted).1 e he
  have hpushlen : ∀ e ∈ (((adj cur).insertionSort
      (fun a b => a.1 ≤ b.1)).filter (fun p => p.1 ∉ cur :: cl)).map
        (fun p => (p.1, path ++ [p.1])), e.2.length = path.length + 1 := by
    intro e he
    rcases mem_pushes_iff.mp he with ⟨nc, _, _, rfl⟩
    simp
  have hpopmin := hinv.pop_min hcl
  refine ⟨?_, ?_, ?_, ?_, ?_, ?_, ?_, ?_, ?_, ?_, ?_⟩
  · intro e he
    rcases List.mem_append.mp he with he | he
    · exact hinv.qvalid e (List.mem_cons_of_mem _ he)
    · rcases mem_pushes_iff.mp he with ⟨nc, hmem, _, rfl⟩
      obtain ⟨c, hc⟩ := hvalid0
      exact ⟨c + nc.2, pathTo_extend hc hmem⟩
  · exact List.nodup_cons.mpr ⟨hcl, hinv.clnodup⟩
  · intro u hu
    rcases List.mem_cons.mp hu with rfl | hu
    · exact hinv.qsub (u, path) (by simp)
    · exact hinv.clsub u hu
  · intro e he
    rcases List.mem_append.mp he with he | he
    · exact hinv.qsub e (List.mem_cons_of_mem _ he)
    · rcases mem_pushes_iff.mp he with ⟨nc, hmem, _, rfl⟩
      exact List.mem_cons_of_mem _ (hwf cur nc hmem)
  · rw [List.pairwise_append]
    refine ⟨(List.pairwise_cons.mp hinv.sorted).2, ?_, ?_⟩
    · exact List.pairwise_of_forall_mem_list (fun a ha b hb => by
        rw [hpushlen a ha, hpushlen b hb])
    · intro a ha b hb
      rw [hpushlen b hb]
      have h2 : a.2.length ≤ path.length + 1 :=
        hinv.twolevel (cur, path) (by simp) a (List.mem_cons_of_mem _ ha)
      omega
  · intro a ha b hb
    have hla : path.length ≤ a.2.length := by
      rcases List.mem_append.mp ha with ha | ha
      · exact hminq a (List.mem_cons_of_mem _ ha)
      · rw [hpushlen a ha]
        omega
    rcases List.mem_append.mp hb with hb | hb
    · have h2 : b.2.length ≤ path.length + 1 :=
        hinv.twolevel (cur, path) (by simp) b (List.mem_cons_of_mem _ hb)
      omega
    · rw [hpushlen b hb]
      omega
  · intro s hs
    rcases List.mem_append.mp hs with hs | hs
    · obtain ⟨h1, h2, h3⟩ := hinv.settled s hs
      exact ⟨List.mem_cons_of_mem _ h1, h2, h3⟩
    · simp at hs
      subst hs
      exact ⟨by simp, hvalid0, hpopmin⟩
  · intro u hu
    rcases List.mem_cons.mp hu with rfl | hu
    · exact ⟨⟨u, path, rest.map Prod.fst, u :: cl⟩, by simp, rfl⟩
    · obtain ⟨s, hs, hscur⟩ := hinv.stepscl u hu
      exact ⟨s, List.mem_append_left _ hs, hscur⟩
  · intro s hs nc hnc
    rcases List.mem_append.mp hs with hs | hs
    · rcases hinv.frontq s hs nc hnc with h | ⟨p, hp, hlp⟩
      · exact Or.inl (List.mem_cons_of_mem _ h)
      · rcases List.mem_cons.mp hp with hp' | hp'
        · have : nc.1 = cur := congrArg Prod.fst hp'
          exact Or.inl (this ▸ List.mem_cons_self _ _)
        · exact Or.inr ⟨p, List.mem_append_left _ hp', hlp⟩
    · simp at hs
      subst hs
      simp only
      by_cases hmem : nc.1 ∈ cur :: cl
      · exact Or.inl hmem
      · refine Or.inr ⟨path ++ [nc.1], List.mem_append_right _
          (mem_pushes_iff.mpr ⟨nc, hnc, hmem, rfl⟩), by simp⟩
  · rcases hinv.startq with h | hp
    · exact Or.inl (List.mem_cons_of_mem _ h)
    · rcases List.mem_cons.mp hp with hp' | hp'
      · have : start = cur := congrArg Prod.fst hp'
        exact Or.inl (this ▸ List.mem_cons_self _ _)
      · exact Or.inr (List.mem_append_left _ hp')
  · intro hcon
    rcases List.mem_cons.mp hcon with rfl | hcon
    · exact hg rfl
    · exact hinv.goalout hcon

lemma BInv.bno_path {adj : Adj} {nodes : List Nat} {start goal : Nat}
    {cl : List Nat} {st : List SStep}
    (hinv : BInv adj nodes start goal [] cl st) :
    ¬ Reachable adj start goal := by
  rintro ⟨c, k, hwalk⟩
  have hstart : start ∈ cl := by
    rcases hinv.startq with h | hp
    · exact h
    · exact absurd hp (List.not_mem_nil _)
  have hclosure : ∀ x ∈ cl, ∀ nc ∈ adj x, nc.1 ∈ cl := by
    intro x hx nc hnc
    obtain ⟨s, hs, hscur⟩ := hinv.stepscl x hx
    rcases hinv.frontq s hs nc (hscur ▸ hnc) with h | ⟨p, hp, -⟩
    · exact h
    · exact absurd hp (List.not_mem_nil _)
  exact hinv.goalout (walk_closed hclosure hwalk hstart)

lemma bfsLoop_sound (adj : Adj) (nodes : List Nat) (start goal : Nat)
    (hwf : WF adj nodes) :
    ∀ (fuel : Nat) (q : List (Nat × List Nat)) (cl : List Nat)
      (st : List SStep), BInv adj nodes start goal q cl st →
      ∀ r st', bfsLoop adj goal fuel q cl st = some (r, st') →
        (∀ p, r = some p → (∃ c, PathTo adj start goal p c) ∧
          ∀ c' k, Walk adj start goal c' k → p.length ≤ k + 1) ∧
        (r = none → ¬ Reachable adj start goal)
  | 0, _, _, _, _, _, _, heq => by simp [bfsLoop] at heq
  | fuel + 1, [], cl, st, hinv, r, st', heq => by
    simp [bfsLoop] at heq
    refine ⟨fun p hp => ?_, fun _ => hinv.bno_path⟩
    rw [← heq.1] at hp
    simp at hp
  | fuel + 1, (cur, path) :: rest, cl, st, hinv, r, st', heq => by
    rw [bfsLoop] at heq
    by_cases hcl : cur ∈ cl
    · rw [if_pos hcl] at heq
      exact bfsLoop_sound adj nodes start goal hwf fuel rest cl st
        (hinv.bstale hcl) r st' heq
    · rw [if_neg hcl] at heq
      by_cases hg : cur = goal
      · rw [if_pos hg] at heq
        simp only [Option.some.injEq, Prod.mk.injEq] at heq
        refine ⟨fun p hp => ?_, fun hn => ?_⟩
        · rw [← heq.1] at hp
          simp at hp
          subst hp
          subst hg
          exact ⟨hinv.qvalid (cur, path) (by simp), hinv.pop_min hcl⟩
        · rw [← heq.1] at hn
          simp at hn
      · rw [if_neg hg] at heq
        exact bfsLoop_sound adj nodes start goal hwf fuel _ _ _
          (hinv.bexpand hwf hcl hg) r st' heq

lemma bfsLoop_term (adj : Adj) (nodes : List Nat) (start goal : Nat)
    (hwf : WF adj nodes) :
    ∀ (μ : Nat) (q : List (Nat × List Nat)) (cl : List Nat) (st : List SStep),
      BInv adj nodes start goal q cl st →
      (nodes.length + 1 - cl.length) *
        (maxDegList adj (start :: nodes) + 1) + q.length ≤ μ →
      ∃ fuel r st', bfsLoop adj goal fuel q cl st = some (r, st') := by
  intro μ
  induction μ with
  | zero =>
    intro q cl st hinv hμ
    cases q with
    | nil => exact ⟨1, none, st, by rw [bfsLoop]⟩
    | cons e rest => simp at hμ
  | succ μ ih =>
    intro q cl st hinv hμ
    cases q with
    | nil => exact ⟨1, none, st, by rw [bfsLoop]⟩
    | cons e rest =>
      obtain ⟨cur, path⟩ := e
      by_cases hcl : cur ∈ cl
      · obtain ⟨fuel, r, st', hrun⟩ := ih rest cl st (hinv.bstale hcl)
          (by simp at hμ ⊢; omega)
        exact ⟨fuel + 1, r, st', by rw [bfsLoop, if_pos hcl]; exact hrun⟩
      · by_cases hg : cur = goal
        · refine ⟨1, some path,
            st ++ [⟨cur, path, rest.map Prod.fst, cur :: cl⟩], ?_⟩
          rw [bfsLoop, if_neg hcl, if_pos hg]
        · have hcur : cur ∈ start :: nodes := hinv.qsub (cur, path) (by simp)
          have hlen : cl.length + 1 ≤ nodes.length + 1 := by
            have := nodup_subset_length
              (List.nodup_cons.mpr ⟨hcl, hinv.clnodup⟩)
              (fun x hx => by
                rcases List.mem_cons.mp hx with rfl | hx
                · exact hcur
                · exact hinv.clsub x hx)
            simpa using this
          have hpush : ((((adj cur).insertionSort
              (fun a b => a.1 ≤ b.1)).filter
                (fun p => p.1 ∉ cur :: cl)).map
                  (fun p => (p.1, path ++ [p.1]))).length ≤
              maxDegList adj (start :: nodes) := by
            rw [List.length_map]
            calc (((adj cur).insertionSort (fun a b => a.1 ≤ b.1)).filter
                  (fun p => p.1 ∉ cur :: cl)).length
                ≤ ((adj cur).insertionSort (fun a b => a.1 ≤ b.1)).length :=
                  List.length_filter_le _ _
              _ = (adj cur).length :=
                  (List.perm_insertionSort _ _).length_eq
              _ ≤ maxDegList adj (start :: nodes) := le_maxDegList hcur
          have hmul : (nodes.length + 1 - cl.length) *
              (maxDegList adj (start :: nodes) + 1) =
              (nodes.length + 1 - (cl.length + 1)) *
                (maxDegList adj (start :: nodes) + 1) +
                (maxDegList adj (start :: nodes) + 1) := by
            rw [show nodes.length + 1 - cl.length =
              (nodes.length + 1 - (cl.length + 1)) + 1 by omega,
              Nat.succ_mul]
          obtain ⟨fuel, r, st', hrun⟩ := ih
            (rest ++ (((adj cur).insertionSort (fun a b => a.1 ≤ b.1)).filter
              (fun p => p.1 ∉ cur :: cl)).map (fun p => (p.1, path ++ [p.1])))
            (cur :: cl)
            (st ++ [⟨cur, path, rest.map Prod.fst, cur :: cl⟩])
            (hinv.bexpand hwf hcl hg)
            (by
              simp only [List.length_append, List.length_cons]
              simp only [List.length_cons] at hμ
              omega)
          exact ⟨fuel + 1, r, st', by
            rw [bfsLoop, if_neg hcl, if_neg hg]
            exact hrun⟩

/-- C2: BFS terminates on a finite graph; whenever start and goal are
connected it returns a path (not the sentinel); and any returned path is a
valid start-goal path whose number of edges is minimal among all walks
from start to goal, regardless of edge weights. -/
theorem bfs_shortest_hops (adj : Adj) (nodes : List Nat) (start goal : Nat)
    (hwf : WF adj nodes) :
    (∃ fuel r st', bfs adj start goal fuel = some (r, st')) ∧
    (Reachable adj start goal →
      ∀ fuel r st', bfs adj start goal fuel = some (r, st') →
        ∃ p, r = some p) ∧
    (∀ fuel p st', bfs adj start goal fuel = some (some p, st') →
      (∃ c, PathTo adj start goal p c) ∧
      ∀ c' k, Walk adj start goal c' k → p.length ≤ k + 1) := by
  refine ⟨?_, ?_, ?_⟩
  · exact bfsLoop_term adj nodes start goal hwf _ _ _ []
      (BInv.binit adj nodes start goal (by simp)) (le_refl _)
  · intro hreach fuel r st' heq
    have hs := bfsLoop_sound adj nodes start goal hwf fuel _ _ _
      (BInv.binit adj nodes start goal (by simp)) r st' heq
    cases r with
    | none => exact absurd hreach (hs.2 rfl)
    | some p => exact ⟨p, rfl⟩
  · intro fuel p st' heq
    have hs := bfsLoop_sound adj nodes start goal hwf fuel _ _ _
      (BInv.binit adj nodes start goal (by simp)) (some p) st' heq
    exact hs.1 p rfl

/-- C2 witness: on the witness graph BFS returns `[0, 2, 3]`, the 2-hop
path, although its weight 103 exceeds the 102 of the 3-hop path. -/
theorem bfs_shortest_hops_witness :
    (∃ fuel r st', bfs wAdj 0 3 fuel = some (r, st')) ∧
    (∃ st' p, bfs wAdj 0 3 20 = some (some p, st') ∧ p = [0, 2, 3] ∧
      (∃ c, PathTo wAdj 0 3 p c) ∧
      ∀ c' k, Walk wAdj 0 3 c' k → p.length ≤ k + 1) := by
  have hw := bfs_shortest_hops wAdj [0, 1, 2, 3] 0 3 wAdj_wf
  refine ⟨hw.1, ?_⟩
  have h2 : ∃ st2, bfs wAdj 0 3 20 = some (some [0, 2, 3], st2) := ⟨_, rfl⟩
  obtain ⟨st2, h2⟩ := h2
  exact ⟨st2, [0, 2, 3], h2, rfl, hw.2.2 20 [0, 2, 3] st2 h2⟩

/- ----------------------------------------------------------------
A*: loop invariant, soundness, optimality under a consistent heuristic,
termination.
---------------------------------------------------------------- -/

/-- Along any walk, a consistent heuristic drops by at most the walk
cost. -/
lemma consistent_walk {adj : Adj} {h : Nat → Nat}
    (hcons : Consistent adj h) :
    ∀ {u v c k}, Walk adj u v c k → h u ≤ c + h v := by
  intro u v c k hwalk
  induction hwalk with
  | nil w => omega
  | cons hedge htail ih =>
    rename_i u w v cw d kk
    have h2 : h u ≤ cw + h w := hcons u (w, cw) hedge
    omega

lemma popMin_eq_none {oq : List AEntry} (heq : popMin oq = none) :
    oq = [] := by
  cases oq with
  | nil => rfl
  | cons e es => exact absurd heq (popMin_ne_none e es)

/-- Mid-loop state of the neighbor relaxation: values in the `g_costs`
dict are costs of real paths, unclosed dict entries have a matching heap
entry among the untouched heap plus the pushes so far, and the pushes are
well-formed. -/
structure RelaxMid (adj : Adj) (nodes : List Nat) (h : Nat → Nat)
    (start : Nat) (cl' : List Nat) (rest : List AEntry)
    (gm : Nat → Option Nat) (pl : List AEntry) : Prop where
  m1 : ∀ v g0, gm v = some g0 → ∃ p, PathTo adj start v p g0
  m2 : ∀ v g0, v ∉ cl' → gm v = some g0 →
    ∃ p', (g0 + h v, g0, v, p') ∈ rest ++ pl
  m3 : ∀ e ∈ pl, e.1 = e.2.1 + h e.2.2.1 ∧
    PathTo adj start e.2.2.1 e.2.2.2 e.2.1
  m4 : ∀ e ∈ pl, ∃ g0, gm e.2.2.1 = some g0 ∧ g0 ≤ e.2.1
  m5 : ∀ e ∈ pl, e.2.2.1 ∈ start :: nodes
  m6 : gm start = some 0

lemma relax_spec (adj : Adj) (nodes : List Nat) (h : Nat → Nat)
    (start cur : Nat) (gc : Nat) (path : List Nat) (cl' : List Nat)
    (rest : List AEntry) (hwf : WF adj nodes)
    (hpath : PathTo adj start cur path gc) :
    ∀ (ncs : List (Nat × Nat)) (gm : Nat → Option Nat) (pl : List AEntry),
      RelaxMid adj nodes h start cl' rest gm pl →
      (∀ nc ∈ ncs, nc ∈ adj cur) →
      RelaxMid adj nodes h start cl' rest
        (relax h gc path cl' ncs gm pl).1 (relax h gc path cl' ncs gm pl).2 ∧
      (∀ v gOld, gm v = some gOld →
        ∃ g0, (relax h gc path cl' ncs gm pl).1 v = some g0 ∧ g0 ≤ gOld) ∧
      (∀ v, v ∈ cl' → (relax h gc path cl' ncs gm pl).1 v = gm v) ∧
      (∀ nc ∈ ncs, nc.1 ∈ cl' ∨ ∃ gw,
        (relax h gc path cl' ncs gm pl).1 nc.1 = some gw ∧ gw ≤ gc + nc.2) ∧
      (∀ e ∈ pl, e ∈ (relax h gc path cl' ncs gm pl).2) ∧
      (relax h gc path cl' ncs gm pl).2.length ≤ pl.length + ncs.length
  | [], gm, pl, hmid, _ => by
    refine ⟨hmid, fun v gOld hv => ⟨gOld, hv, le_refl _⟩, fun v _ => rfl,
      by simp, fun e he => he, by simp [relax]⟩
  | nc :: ncs, gm, pl, hmid, hncs => by
    have hncmem : nc ∈ adj cur := hncs nc (by simp)
    by_cases hclmem : nc.1 ∈ cl'
    · have hrw : relax h gc path cl' (nc :: ncs) gm pl =
        relax h gc path cl' ncs gm pl := by
        rw [relax, if_neg (by simpa using hclmem)]
      rw [hrw]
      obtain ⟨r1, r2, r3, r4, r5, r6⟩ := relax_spec adj nodes h start cur
        gc path cl' rest hwf hpath ncs gm pl hmid
        (fun x hx => hncs x (by simp [hx]))
      refine ⟨r1, r2, r3, ?_, r5, by simpa using Nat.le_succ_of_le r6⟩
      intro x hx
      rcases List.mem_cons.mp hx with rfl | hx
      · exact Or.inl hclmem
      · exact r4 x hx
    · cases hgm : gm nc.1 with
      | none =>
        have hrw : relax h gc path cl' (nc :: ncs) gm pl =
            relax h gc path cl' ncs
              (fun v => if v = nc.1 then some (gc + nc.2) else gm v)
              (pl ++ [(gc + nc.2 + h nc.1, gc + nc.2, nc.1,
                path ++ [nc.1])]) := by
          rw [relax, if_pos (by simpa using hclmem),
            if_pos (Or.inl hgm)]
        have hmid' : RelaxMid adj nodes h start cl' rest
            (fun v => if v = nc.1 then some (gc + nc.2) else gm v)
            (pl ++ [(gc + nc.2 + h nc.1, gc + nc.2, nc.1,
              path ++ [nc.1])]) := by
          refine ⟨?_, ?_, ?_, ?_, ?_, ?_⟩
          · intro v g0 hv
            by_cases hvnc : v = nc.1
            · subst hvnc
              simp at hv
              exact ⟨path ++ [nc.1], hv ▸ pathTo_extend hpath hncmem⟩
            · rw [if_neg hvnc] at hv
              exact hmid.m1 v g0 hv
          · intro v g0 hvcl hv
            by_cases hvnc : v = nc.1
            · subst hvnc
              simp at hv
              subst hv
              exact ⟨path ++ [nc.1], by simp⟩
            · rw [if_neg hvnc] at hv
              obtain ⟨p', hp'⟩ := hmid.m2 v g0 hvcl hv
              exact ⟨p', by
                rcases List.mem_append.mp hp' with hp' | hp'
                · exact List.mem_append_left _ hp'
                · exact List.mem_append_right _ (List.mem_append_left _ hp')⟩
          · intro e he
            rcases List.mem_append.mp he with he | he
            · exact hmid.m3 e he
            · simp at he
              subst he
              exact ⟨rfl, pathTo_extend hpath hncmem⟩
          · intro e he
            rcases List.mem_append.mp he with he | he
            · obtain ⟨g0, hg0, hle⟩ := hmid.m4 e he
              by_cases hvnc : e.2.2.1 = nc.1
              · rw [hvnc, hgm] at hg0
                cases hg0
              · exact ⟨g0, by rw [if_neg hvnc]; exact hg0, hle⟩
            · simp at he
              subst he
              exact ⟨gc + nc.2, by simp, le_refl _⟩
          · intro e he
            rcases List.mem_append.mp he with he | he
            · exact hmid.m5 e he
            · simp at he
              subst he
              exact List.mem_cons_of_mem _ (hwf cur nc hncmem)
          · have hsne : start ≠ nc.1 := by
              intro hcon
              rw [← hcon, hmid.m6] at hgm
              cases hgm
            rw [if_neg hsne]
            exact hmid.m6
        rw [hrw]
        obtain ⟨r1, r2, r3, r4, r5, r6⟩ := relax_spec adj nodes h start cur
          gc path cl' rest hwf hpath ncs _ _ hmid'
          (fun x hx => hncs x (by simp [hx]))
        refine ⟨r1, ?_, ?_, ?_, ?_, by
          simp only [List.length_append, List.length_cons, List.length_nil] at r6 ⊢
          omega⟩
        · intro v gOld hv
          by_cases hvnc : v = nc.1
          · rw [hvnc, hgm] at hv
            cases hv
          · obtain ⟨g0, hg0, hle⟩ := r2 v gOld (by rw [if_neg hvnc]; exact hv)
            exact ⟨g0, hg0, hle⟩
        · intro v hvcl
          have hvnc : v ≠ nc.1 := fun hcon => hclmem (hcon ▸ hvcl)
          rw [r3 v hvcl, if_neg hvnc]
        · intro x hx
          rcases List.mem_cons.mp hx with rfl | hx
          · refine Or.inr ?_
            obtain ⟨g0, hg0, hle⟩ := r2 x.1 (gc + x.2) (by simp)
            exact ⟨g0, hg0, hle⟩
          · exact r4 x hx
        · intro e he
          exact r5 e (List.mem_append_left _ he)
      | some old =>
        by_cases hless : gc + nc.2 < old
        · have hrw : relax h gc path cl' (nc :: ncs) gm pl =
              relax h gc path cl' ncs
                (fun v => if v = nc.1 then some (gc + nc.2) else gm v)
                (pl ++ [(gc + nc.2 + h nc.1, gc + nc.2, nc.1,
                  path ++ [nc.1])]) := by
            rw [relax, if_pos (by simpa using hclmem),
              if_pos (Or.inr (by rw [hgm]; exact hless))]
          have hmid' : RelaxMid adj nodes h start cl' rest
              (fun v => if v = nc.1 then some (gc + nc.2) else gm v)
              (pl ++ [(gc + nc.2 + h nc.1, gc + nc.2, nc.1,
                path ++ [nc.1])]) := by
            refine ⟨?_, ?_, ?_, ?_, ?_, ?_⟩
            · intro v g0 hv
              by_cases hvnc : v = nc.1
              · subst hvnc
                simp at hv
                exact ⟨path ++ [nc.1], hv ▸ pathTo_extend hpath hncmem⟩
              · rw [if_neg hvnc] at hv
                exact hmid.m1 v g0 hv
            · intro v g0 hvcl hv
              by_cases hvnc : v = nc.1
              · subst hvnc
                simp at hv
                subst hv
                exact ⟨path ++ [nc.1], by simp⟩
              · rw [if_neg hvnc] at hv
                obtain ⟨p', hp'⟩ := hmid.m2 v g0 hvcl hv
                exact ⟨p', by
                  rcases List.mem_append.mp hp' with hp' | hp'
                  · exact List.mem_append_left _ hp'
                  · exact List.mem_append_right _
                      (List.mem_append_left _ hp')⟩
            · intro e he
              rcases List.mem_append.mp he with he | he
              · exact hmid.m3 e he
              · simp at he
                subst he
                exact ⟨rfl, pathTo_extend hpath hncmem⟩
            · intro e he
              rcases List.mem_append.mp he with he | he
              · obtain ⟨g0, hg0, hle⟩ := hmid.m4 e he
                by_cases hvnc : e.2.2.1 = nc.1
                · rw [hvnc, hgm] at hg0
                  simp at hg0
                  refine ⟨gc + nc.2, by rw [hvnc]; simp, ?_⟩
                  omega
                · exact ⟨g0, by rw [if_neg hvnc]; exact hg0, hle⟩
              · simp at he
                subst he
                exact ⟨gc + nc.2, by simp, le_refl _⟩
            · intro e he
              rcases List.mem_append.mp he with he | he
              · exact hmid.m5 e he
              · simp at he
                subst he
                exact List.mem_cons_of_mem _ (hwf cur nc hncmem)
            · have hsne : start ≠ nc.1 := by
                intro hcon
                rw [← hcon, hmid.m6] at hgm
                simp at hgm
                omega
              rw [if_neg hsne]
              exact hmid.m6
          rw [hrw]
          obtain ⟨r1, r2, r3, r4, r5, r6⟩ := relax_spec adj nodes h start
            cur gc path cl' rest hwf hpath ncs _ _ hmid'
            (fun x hx => hncs x (by simp [hx]))
          refine ⟨r1, ?_, ?_, ?_, ?_, by
            simp only [List.length_append, List.length_cons, List.length_nil] at r6 ⊢
            omega⟩
          · intro v gOld hv
            by_cases hvnc : v = nc.1
            · subst hvnc
              rw [hgm] at hv
              simp at hv
              obtain ⟨g0, hg0, hle⟩ := r2 nc.1 (gc + nc.2) (by simp)
              exact ⟨g0, hg0, by omega⟩
            · obtain ⟨g0, hg0, hle⟩ := r2 v gOld
                (by rw [if_neg hvnc]; exact hv)
              exact ⟨g0, hg0, hle⟩
          · intro v hvcl
            have hvnc : v ≠ nc.1 := fun hcon => hclmem (hcon ▸ hvcl)
            rw [r3 v hvcl, if_neg hvnc]
          · intro x hx
            rcases List.mem_cons.mp hx with rfl | hx
            · refine Or.inr ?_
              obtain ⟨g0, hg0, hle⟩ := r2 x.1 (gc + x.2) (by simp)
              exact ⟨g0, hg0, hle⟩
            · exact r4 x hx
          · intro e he
            exact r5 e (List.mem_append_left _ he)
        · have hrw : relax h gc path cl' (nc :: ncs) gm pl =
              relax h gc path cl' ncs gm pl := by
            rw [relax, if_pos (by simpa using hclmem), if_neg ?_]
            rintro (hcon | hcon)
            · rw [hgm] at hcon
              cases hcon
            · rw [hgm] at hcon
              exact hless (by simpa using hcon)
          rw [hrw]
          obtain ⟨r1, r2, r3, r4, r5, r6⟩ := relax_spec adj nodes h start
            cur gc path cl' rest hwf hpath ncs gm pl hmid
            (fun x hx => hncs x (by simp [hx]))
          refine ⟨r1, r2, r3, ?_, r5, by simpa using Nat.le_succ_of_le r6⟩
          intro x hx
          rcases List.mem_cons.mp hx with rfl | hx
          · refine Or.inr ?_
            obtain ⟨g0, hg0, hle⟩ := r2 x.1 old hgm
            exact ⟨g0, hg0, by omega⟩
          · exact r4 x hx

/-- Invariant of the A* loop state: heap entries carry `f = g + h` and a
real path of cost `g`; `g_costs` values are costs of real paths, bound the
heap entries from below, and unclosed `g_costs` entries have a matching
heap entry; expanded (`closed`) nodes keep their frozen `g_costs` value;
every frontier edge out of an expanded node has been relaxed. -/
structure AInv (adj : Adj) (nodes : List Nat) (h : Nat → Nat)
    (start goal : Nat) (oq : List AEntry) (gm : Nat → Option Nat)
    (cl : List Nat) (st : List AStep) : Prop where
  qvalid : ∀ e ∈ oq, e.1 = e.2.1 + h e.2.2.1 ∧
    PathTo adj start e.2.2.1 e.2.2.2 e.2.1
  glower : ∀ e ∈ oq, ∃ g0, gm e.2.2.1 = some g0 ∧ g0 ≤ e.2.1
  gvalid : ∀ v g0, gm v = some g0 → ∃ p, PathTo adj start v p g0
  gopen : ∀ v g0, v ∉ cl → gm v = some g0 → ∃ p, (g0 + h v, g0, v, p) ∈ oq
  gstart : gm start = some 0
  settled : ∀ s ∈ st, s.cur ∈ cl ∧ PathTo adj start s.cur s.path s.gCost ∧
    gm s.cur = some s.gCost
  stepscl : ∀ u ∈ cl, ∃ s ∈ st, s.cur = u
  frontg : ∀ s ∈ st, ∀ nc ∈ adj s.cur, nc.1 ∈ cl ∨
    ∃ gw, gm nc.1 = some gw ∧ gw ≤ s.gCost + nc.2
  clnodup : cl.Nodup
  clsub : ∀ u ∈ cl, u ∈ start :: nodes
  qsub : ∀ e ∈ oq, e.2.2.1 ∈ start :: nodes
  goalout : goal ∉ cl

/-- The recorded expansions all closed their node with a minimal g-cost.
This is the part of the A* invariant that needs a consistent heuristic. -/
def OptSt (adj : Adj) (start : Nat) (st : List AStep) : Prop :=
  ∀ s ∈ st, ∀ c k, Walk adj start s.cur c k → s.gCost ≤ c

lemma AInv.ainit (adj : Adj) (nodes : List Nat) (h : Nat → Nat)
    (start goal : Nat) (hg : goal ∉ ([] : List Nat)) :
    AInv adj nodes h start goal [(h start, 0, start, [start])]
      (fun v => if v = start then some 0 else none) [] [] := by
  refine ⟨?_, ?_, ?_, ?_, by simp, by simp, by simp, by simp,
    List.nodup_nil, by simp, ?_, hg⟩
  · intro e he
    simp at he
    subst he
    exact ⟨(Nat.zero_add _).symm, pathTo_single adj start⟩
  · intro e he
    simp at he
    subst he
    exact ⟨0, by simp, le_refl _⟩
  · intro v g0 hv
    by_cases hvs : v = start
    · subst hvs
      simp at hv
      subst hv
      exact ⟨[v], pathTo_single adj v⟩
    · rw [if_neg hvs] at hv
      cases hv
  · intro v g0 _ hv
    by_cases hvs : v = start
    · subst hvs
      simp at hv
      subst hv
      exact ⟨[v], by simp [Nat.zero_add]⟩
    · rw [if_neg hvs] at hv
      cases hv
  · intro e he
    simp at he
    subst he
    simp

lemma AInv.pop_g {adj : Adj} {nodes : List Nat} {h : Nat → Nat}
    {start goal : Nat} {oq : List AEntry} {gm : Nat → Option Nat}
    {cl : List Nat} {st : List AStep} {f gc cur : Nat} {path : List Nat}
    {rest : List AEntry}
    (hinv : AInv adj nodes h start goal oq gm cl st)
    (hpop : popMin oq = some ((f, gc, cur, path), rest)) (hcl : cur ∉ cl) :
    gm cur = some gc := by
  have hmem : (f, gc, cur, path) ∈ oq :=
    (popMin_perm hpop).mem_iff.mpr (by simp)
  obtain ⟨g0, hg0, hle⟩ := hinv.glower _ hmem
  have hle' : g0 ≤ gc := hle
  have hg0' : gm cur = some g0 := hg0
  obtain ⟨p', hp'⟩ := hinv.gopen cur g0 hcl hg0'
  have hf : f = gc + h cur := (hinv.qvalid _ hmem).1
  have hfle : f ≤ g0 + h cur := popMin_fst_le hpop _ hp'
  have hgc : gc = g0 := by omega
  rw [hg0', hgc]

lemma AInv.pop_opt {adj : Adj} {nodes : List Nat} {h : Nat → Nat}
    {start goal : Nat} {oq : List AEntry} {gm : Nat → Option Nat}
    {cl : List Nat} {st : List AStep} {f gc cur : Nat} {path : List Nat}
    {rest : List AEntry} (hcons : Consistent adj h)
    (hinv : AInv adj nodes h start goal oq gm cl st)
    (hopt : OptSt adj start st)
    (hpop : popMin oq = some ((f, gc, cur, path), rest)) (hcl : cur ∉ cl) :
    ∀ c k, Walk adj start cur c k → gc ≤ c := by
  intro c k hwalk
  have hmem : (f, gc, cur, path) ∈ oq :=
    (popMin_perm hpop).mem_iff.mpr (by simp)
  have hf : f = gc + h cur := (hinv.qvalid _ hmem).1
  by_cases hstart : start ∈ cl
  · obtain ⟨x, y, cxy, c1, k1, c2, k2, hx, hy, hedge, hw1, hw2, hc, hk⟩ :=
      walk_split cl hwalk hstart hcl
    obtain ⟨s, hs, hscur⟩ := hinv.stepscl x hx
    have hsmin : s.gCost ≤ c1 := hopt s hs c1 k1 (hscur ▸ hw1)
    rcases hinv.frontg s hs (y, cxy) (hscur ▸ hedge) with hycl | hgy
    · exact absurd hycl hy
    obtain ⟨gy, hgy, hley⟩ := hgy
    obtain ⟨p', hp'⟩ := hinv.gopen y gy hy hgy
    have hfle : f ≤ gy + h y := popMin_fst_le hpop _ hp'
    have hhy : h y ≤ c2 + h cur := consistent_walk hcons hw2
    omega
  · obtain ⟨p', hp'⟩ := hinv.gopen start 0 hstart hinv.gstart
    have hfle : f ≤ 0 + h start := popMin_fst_le hpop _ hp'
    have hcw : h start ≤ c + h cur := consistent_walk hcons hwalk
    omega

lemma AInv.astale {adj : Adj} {nodes : List Nat} {h : Nat → Nat}
    {start goal : Nat} {oq : List AEntry} {gm : Nat → Option Nat}
    {cl : List Nat} {st : List AStep} {e : AEntry} {rest : List AEntry}
    (hinv : AInv adj nodes h start goal oq gm cl st)
    (hpop : popMin oq = some (e, rest)) (hecl : e.2.2.1 ∈ cl) :
    AInv adj nodes h start goal rest gm cl st := by
  have hsub : ∀ x ∈ rest, x ∈ oq := fun x hx =>
    (popMin_perm hpop).mem_iff.mpr (List.mem_cons_of_mem _ hx)
  refine ⟨fun x hx => hinv.qvalid x (hsub x hx),
    fun x hx => hinv.glower x (hsub x hx), hinv.gvalid, ?_, hinv.gstart,
    hinv.settled, hinv.stepscl, hinv.frontg, hinv.clnodup, hinv.clsub,
    fun x hx => hinv.qsub x (hsub x hx), hinv.goalout⟩
  intro v g0 hvcl hv
  obtain ⟨p, hp⟩ := hinv.gopen v g0 hvcl hv
  rcases List.mem_cons.mp ((popMin_perm hpop).mem_iff.mp hp) with hp' | hp'
  · exfalso
    have : v = e.2.2.1 := congrArg (fun x => x.2.2.1) hp'
    exact hvcl (this ▸ hecl)
  · exact ⟨p, hp'⟩

lemma AInv.ano_path {adj : Adj} {nodes : List Nat} {h : Nat → Nat}
    {start goal : Nat} {gm : Nat → Option Nat} {cl : List Nat}
    {st : List AStep} (hinv : AInv adj nodes h start goal [] gm cl st) :
    ¬ Reachable adj start goal := by
  rintro ⟨c, k, hwalk⟩
  have hstart : start ∈ cl := by
    by_contra hcon
    obtain ⟨p, hp⟩ := hinv.gopen start 0 hcon hinv.gstart
    exact absurd hp (List.not_mem_nil _)
  have hclosure : ∀ x ∈ cl, ∀ nc ∈ adj x, nc.1 ∈ cl := by
    intro x hx nc hnc
    obtain ⟨s, hs, hscur⟩ := hinv.stepscl x hx
    rcases hinv.frontg s hs nc (hscur ▸ hnc) with hcl' | ⟨gw, hgw, -⟩
    · exact hcl'
    · by_contra hcon
      obtain ⟨p, hp⟩ := hinv.gopen nc.1 gw hcon hgw
      exact absurd hp (List.not_mem_nil _)
  exact hinv.goalout (walk_closed hclosure hwalk hstart)

lemma AInv.aexpand {adj : Adj} {nodes : List Nat} {h : Nat → Nat}
    {start goal : Nat} {oq : List AEntry} {gm : Nat → Option Nat}
    {cl : List Nat} {st : List AStep} {f gc cur : Nat} {path : List Nat}
    {rest : List AEntry} (hwf : WF adj nodes)
    (hinv : AInv adj nodes h start goal oq gm cl st)
    (hpop : popMin oq = some ((f, gc, cur, path), rest)) (hcl : cur ∉ cl)
    (hg : cur ≠ goal) :
    AInv adj nodes h start goal
      (rest ++ (relax h gc path (cur :: cl) (adj cur) gm []).2)
      (relax h gc path (cur :: cl) (adj cur) gm []).1
      (cur :: cl)
      (st ++ [⟨cur, path, f, gc, h cur, cur :: cl⟩]) := by
  have hmem : (f, gc, cur, path) ∈ oq :=
    (popMin_perm hpop).mem_iff.mpr (by simp)
  have hrsub : ∀ x ∈ rest, x ∈ oq := fun x hx =>
    (popMin_perm hpop).mem_iff.mpr (List.mem_cons_of_mem _ hx)
  have hpathcur : PathTo adj start cur path gc := (hinv.qvalid _ hmem).2
  have hgmcur : gm cur = some gc := hinv.pop_g hpop hcl
  have hmid0 : RelaxMid adj nodes h start (cur :: cl) rest gm [] := by
    refine ⟨hinv.gvalid, ?_, by simp, by simp, by simp, hinv.gstart⟩
    intro v g0 hvcl hv
    have hvc : v ∉ cl := fun hcon => hvcl (List.mem_cons_of_mem _ hcon)
    have hvne : v ≠ cur := fun hcon => hvcl (hcon ▸ List.mem_cons_self _ _)
    obtain ⟨p, hp⟩ := hinv.gopen v g0 hvc hv
    rcases List.mem_cons.mp ((popMin_perm hpop).mem_iff.mp hp) with hp' | hp'
    · exfalso
      exact hvne (congrArg (fun x => x.2.2.1) hp')
    · exact ⟨p, by simpa using hp'⟩
  obtain ⟨r1, r2, r3, r4, r5, r6⟩ := relax_spec adj nodes h start cur gc
    path (cur :: cl) rest hwf hpathcur (adj cur) gm [] hmid0
    (fun nc hnc => hnc)
  have hcur : cur ∈ start :: nodes := hinv.qsub _ hmem
  refine ⟨?_, ?_, r1.m1, ?_, r1.m6, ?_, ?_, ?_, ?_, ?_, ?_, ?_⟩
  · intro e he
    rcases List.mem_append.mp he with he | he
    · exact hinv.qvalid e (hrsub e he)
    · exact r1.m3 e he
  · intro e he
    rcases List.mem_append.mp he with he | he
    · obtain ⟨g0, hg0, hle⟩ := hinv.glower e (hrsub e he)
      obtain ⟨g0', hg0', hle'⟩ := r2 _ g0 hg0
      exact ⟨g0', hg0', by omega⟩
    · exact r1.m4 e he
  · intro v g0 hvcl hv
    exact r1.m2 v g0 hvcl hv
  · intro s hs
    rcases List.mem_append.mp hs with hs | hs
    · obtain ⟨h1, h2, h3⟩ := hinv.settled s hs
      exact ⟨List.mem_cons_of_mem _ h1, h2, by
        rw [r3 s.cur (List.mem_cons_of_mem _ h1)]
        exact h3⟩
    · simp at hs
      subst hs
      exact ⟨by simp, hpathcur, by
        rw [r3 cur (List.mem_cons_self _ _)]
        exact hgmcur⟩
  · intro u hu
    rcases List.mem_cons.mp hu with rfl | hu
    · exact ⟨⟨u, path, f, gc, h u, u :: cl⟩, by simp, rfl⟩
    · obtain ⟨s, hs, hscur⟩ := hinv.stepscl u hu
      exact ⟨s, List.mem_append_left _ hs, hscur⟩
  · intro s hs nc hnc
    rcases List.mem_append.mp hs with hs | hs
    · rcases hinv.frontg s hs nc hnc with h' | ⟨gw, hgw, hle⟩
      · exact Or.inl (List.mem_cons_of_mem _ h')
      · obtain ⟨gw', hgw', hle'⟩ := r2 nc.1 gw hgw
        exact Or.inr ⟨gw', hgw', by omega⟩
    · simp at hs
      subst hs
      rcases r4 nc hnc with h' | ⟨gw, hgw, hle⟩
      · exact Or.inl h'
      · exact Or.inr ⟨gw, hgw, hle⟩
  · exact List.nodup_cons.mpr ⟨hcl, hinv.clnodup⟩
  · intro u hu
    rcases List.mem_cons.mp hu with rfl | hu
    · exact hcur
    · exact hinv.clsub u hu
  · intro e he
    rcases List.mem_append.mp he with he | he
    · exact hinv.qsub e (hrsub e he)
    · exact r1.m5 e he
  · intro hcon
    rcases List.mem_cons.mp hcon with rfl | hcon
    · exact hg rfl
    · exact hinv.goalout hcon

lemma OptSt.oexpand {adj : Adj} {nodes : List Nat} {h : Nat → Nat}
    {start goal : Nat} {oq : List AEntry} {gm : Nat → Option Nat}
    {cl : List Nat} {st : List AStep} {f gc cur : Nat} {path : List Nat}
    {rest : List AEntry} (hcons : Consistent adj h)
    (hinv : AInv adj nodes h start goal oq gm cl st)
    (hopt : OptSt adj start st)
    (hpop : popMin oq = some ((f, gc, cur, path), rest)) (hcl : cur ∉ cl) :
    OptSt adj start (st ++ [⟨cur, path, f, gc, h cur, cur :: cl⟩]) := by
  intro s hs c k hwalk
  rcases List.mem_append.mp hs with hs | hs
  · exact hopt s hs c k hwalk
  · simp at hs
    subst hs
    exact AInv.pop_opt hcons hinv hopt hpop hcl c k hwalk

lemma astarLoop_sound (adj : Adj) (nodes : List Nat) (h : Nat → Nat)
    (start goal : Nat) (hwf : WF adj nodes) :
    ∀ (fuel : Nat) (oq : List AEntry) (gm : Nat → Option Nat)
      (cl : List Nat) (st : List AStep),
      AInv adj nodes h start goal oq gm cl st →
      ∀ r c st', astarLoop adj h goal fuel oq gm cl st = some (r, c, st') →
        (∀ p, r = some p → PathTo adj start goal p c) ∧
        (r = none → ¬ Reachable adj start goal ∧ c = 0)
  | 0, _, _, _, _, _, _, _, _, heq => by simp [astarLoop] at heq
  | fuel + 1, oq, gm, cl, st, hinv, r, c, st', heq => by
    cases hpop : popMin oq with
    | none =>
      rw [astarLoop_succ_none adj h goal fuel oq gm cl st hpop] at heq
      simp only [Option.some.injEq, Prod.mk.injEq] at heq
      refine ⟨fun p hp => ?_, fun _ => ?_⟩
      · rw [← heq.1] at hp
        simp at hp
      · have hoq : oq = [] := popMin_eq_none hpop
        subst hoq
        exact ⟨hinv.ano_path, heq.2.1.symm⟩
    | some pr =>
      obtain ⟨⟨f, gc, cur, path⟩, rest⟩ := pr
      rw [astarLoop_succ_some adj h goal fuel oq gm cl st f gc cur path
        rest hpop] at heq
      by_cases hcl : cur ∈ cl
      · rw [if_pos hcl] at heq
        exact astarLoop_sound adj nodes h start goal hwf fuel rest gm cl st
          (hinv.astale hpop hcl) r c st' heq
      · rw [if_neg hcl] at heq
        by_cases hg : cur = goal
        · rw [if_pos hg] at heq
          simp only [Option.some.injEq, Prod.mk.injEq] at heq
          have hmem : (f, gc, cur, path) ∈ oq :=
            (popMin_perm hpop).mem_iff.mpr (by simp)
          refine ⟨fun p hp => ?_, fun hn => ?_⟩
          · rw [← heq.1] at hp
            simp at hp
            subst hp
            rw [← heq.2.1]
            exact hg ▸ (hinv.qvalid _ hmem).2
          · rw [← heq.1] at hn
            simp at hn
        · rw [if_neg hg] at heq
          exact astarLoop_sound adj nodes h start goal hwf fuel _ _ _ _
            (hinv.aexpand hwf hpop hcl hg) r c st' heq

lemma astarLoop_opt (adj : Adj) (nodes : List Nat) (h : Nat → Nat)
    (start goal : Nat) (hwf : WF adj nodes) (hcons : Consistent adj h) :
    ∀ (fuel : Nat) (oq : List AEntry) (gm : Nat → Option Nat)
      (cl : List Nat) (st : List AStep),
      AInv adj nodes h start goal oq gm cl st → OptSt adj start st →
      ∀ p c st', astarLoop adj h goal fuel oq gm cl st = some (some p, c, st') →
        ∀ c' k, Walk adj start goal c' k → c ≤ c'
  | 0, _, _, _, _, _, _, _, _, _, heq => by simp [astarLoop] at heq
  | fuel + 1, oq, gm, cl, st, hinv, hopt, p, c, st', heq => by
    cases hpop : popMin oq with
    | none =>
      rw [astarLoop_succ_none adj h goal fuel oq gm cl st hpop] at heq
      simp at heq
    | some pr =>
      obtain ⟨⟨f, gc, cur, path⟩, rest⟩ := pr
      rw [astarLoop_succ_some adj h goal fuel oq gm cl st f gc cur path
        rest hpop] at heq
      by_cases hcl : cur ∈ cl
      · rw [if_pos hcl] at heq
        exact astarLoop_opt adj nodes h start goal hwf hcons fuel rest gm
          cl st (hinv.astale hpop hcl) hopt p c st' heq
      · rw [if_neg hcl] at heq
        by_cases hg : cur = goal
        · rw [if_pos hg] at heq
          simp only [Option.some.injEq, Prod.mk.injEq] at heq
          intro c' k hwalk
          rw [← heq.2.1]
          exact AInv.pop_opt hcons hinv hopt hpop hcl c' k (hg ▸ hwalk)
        · rw [if_neg hg] at heq
          exact astarLoop_opt adj nodes h start goal hwf hcons fuel _ _ _ _
            (hinv.aexpand hwf hpop hcl hg)
            (OptSt.oexpand hcons hinv hopt hpop hcl) p c st' heq

/-- The pushes of one relaxation never outnumber the neighbor list. -/
lemma relax_len (h : Nat → Nat) (gc : Nat) (path : List Nat)
    (cl' : List Nat) :
    ∀ (ncs : List (Nat × Nat)) (gm : Nat → Option Nat) (pl : List AEntry),
      (relax h gc path cl' ncs gm pl).2.length ≤ pl.length + ncs.length
  | [], gm, pl => by simp [relax]
  | nc :: ncs, gm, pl => by
    rw [relax]
    by_cases hcl : nc.1 ∉ cl'
    · rw [if_pos hcl]
      by_cases hless : gm nc.1 = none ∨ gc + nc.2 < (gm nc.1).getD 0
      · rw [if_pos hless]
        have := relax_len h gc path cl' ncs
          (fun v => if v = nc.1 then some (gc + nc.2) else gm v)
          (pl ++ [(gc + nc.2 + h nc.1, gc + nc.2, nc.1, path ++ [nc.1])])
        simp only [List.length_append, List.length_cons,
          List.length_nil] at this ⊢
        omega
      · rw [if_neg hless]
        have := relax_len h gc path cl' ncs gm pl
        simp only [List.length_cons]
        omega
    · rw [if_neg hcl]
      have := relax_len h gc path cl' ncs gm pl
      simp only [List.length_cons]
      omega

lemma astarLoop_term (adj : Adj) (nodes : List Nat) (h : Nat → Nat)
    (start goal : Nat) (hwf : WF adj nodes) :
    ∀ (μ : Nat) (oq : List AEntry) (gm : Nat → Option Nat) (cl : List Nat)
      (st : List AStep),
      AInv adj nodes h start goal oq gm cl st →
      (nodes.length + 1 - cl.length) *
        (maxDegList adj (start :: nodes) + 1) + oq.length ≤ μ →
      ∃ fuel r c st', astarLoop adj h goal fuel oq gm cl st =
        some (r, c, st') := by
  intro μ
  induction μ with
  | zero =>
    intro oq gm cl st hinv hμ
    cases oq with
    | nil =>
      exact ⟨1, none, 0, st,
        astarLoop_succ_none adj h goal 0 [] gm cl st rfl⟩
    | cons e rest => simp at hμ
  | succ μ ih =>
    intro oq gm cl st hinv hμ
    cases oq with
    | nil =>
      exact ⟨1, none, 0, st,
        astarLoop_succ_none adj h goal 0 [] gm cl st rfl⟩
    | cons e es =>
      cases hpop : popMin (e :: es) with
      | none => exact absurd hpop (popMin_ne_none e es)
      | some pr =>
        obtain ⟨⟨f, gc, cur, path⟩, rest⟩ := pr
        have hlen : es.length = rest.length := by
          have := (popMin_perm hpop).length_eq
          simpa using this
        by_cases hcl : cur ∈ cl
        · obtain ⟨fuel, r, c, st', hrun⟩ := ih rest gm cl st
            (hinv.astale hpop hcl)
            (by simp only [List.length_cons] at hμ; omega)
          exact ⟨fuel + 1, r, c, st', by
            rw [astarLoop_succ_some adj h goal fuel (e :: es) gm cl st
              f gc cur path rest hpop, if_pos hcl]
            exact hrun⟩
        · by_cases hg : cur = goal
          · refine ⟨1, some path, gc,
              st ++ [⟨cur, path, f, gc, h cur, cur :: cl⟩], ?_⟩
            rw [astarLoop_succ_some adj h goal 0 (e :: es) gm cl st
              f gc cur path rest hpop, if_neg hcl, if_pos hg]
          · have hmem : (f, gc, cur, path) ∈ e :: es :=
              (popMin_perm hpop).mem_iff.mpr (by simp)
            have hcur : cur ∈ start :: nodes := hinv.qsub _ hmem
            have hclen : cl.length + 1 ≤ nodes.length + 1 := by
              have := nodup_subset_length
                (List.nodup_cons.mpr ⟨hcl, hinv.clnodup⟩)
                (fun x hx => by
                  rcases List.mem_cons.mp hx with rfl | hx
                  · exact hcur
                  · exact hinv.clsub x hx)
              simpa using this
            have hpush :
                (relax h gc path (cur :: cl) (adj cur) gm []).2.length ≤
                maxDegList adj (start :: nodes) := by
              calc (relax h gc path (cur :: cl) (adj cur) gm []).2.length
                  ≤ (adj cur).length := by
                    have := relax_len h gc path (cur :: cl) (adj cur) gm []
                    simpa using this
                _ ≤ maxDegList adj (start :: nodes) := le_maxDegList hcur
            have hmul : (nodes.length + 1 - cl.length) *
                (maxDegList adj (start :: nodes) + 1) =
                (nodes.length + 1 - (cl.length + 1)) *
                  (maxDegList adj (start :: nodes) + 1) +
                  (maxDegList adj (start :: nodes) + 1) := by
              rw [show nodes.length + 1 - cl.length =
                (nodes.length + 1 - (cl.length + 1)) + 1 by omega,
                Nat.succ_mul]
            obtain ⟨fuel, r, c, st', hrun⟩ := ih
              (rest ++ (relax h gc path (cur :: cl) (adj cur) gm []).2)
              (relax h gc path (cur :: cl) (adj cur) gm []).1
              (cur :: cl)
              (st ++ [⟨cur, path, f, gc, h cur, cur :: cl⟩])
              (hinv.aexpand hwf hpop hcl hg)
              (by
                simp only [List.length_append, List.length_cons]
                simp only [List.length_cons] at hμ
                omega)
            exact ⟨fuel + 1, r, c, st', by
              rw [astarLoop_succ_some adj h goal fuel (e :: es) gm cl st
                f gc cur path rest hpop, if_neg hcl, if_neg hg]
              exact hrun⟩

/-- C10: whenever `astar` returns a non-None path, that path begins at
start, ends at goal, every consecutive pair of its nodes is adjacent in
the graph, and the returned total cost is the sum of the edge weights
along it. -/
theorem astar_path_valid (adj : Adj) (nodes : List Nat) (h : Nat → Nat)
    (start goal : Nat) (hwf : WF adj nodes) (fuel : Nat) (p : List Nat)
    (c : Nat) (st' : List AStep)
    (heq : astar adj h start goal fuel = some (some p, c, st')) :
    PathTo adj start goal p c :=
  (astarLoop_sound adj nodes h start goal hwf fuel _ _ _ _
    (AInv.ainit adj nodes h start goal (List.not_mem_nil _))
    (some p) c st' heq).1 p rfl

/-- C10 witness: the soundness theorem applied to the concrete run of the
zero-heuristic A* on the witness graph, which returns `([0,1,2,3], 102)`. -/
theorem astar_path_valid_witness :
    WF wAdj [0, 1, 2, 3] ∧ PathTo wAdj 0 3 [0, 1, 2, 3] 102 := by
  have h3 : ∃ st3, astar wAdj (fun _ => 0) 0 3 20 =
      some (some [0, 1, 2, 3], 102, st3) := ⟨_, rfl⟩
  obtain ⟨st3, h3⟩ := h3
  exact ⟨wAdj_wf, astar_path_valid wAdj [0, 1, 2, 3] (fun _ => 0) 0 3
    wAdj_wf 20 [0, 1, 2, 3] 102 st3 h3⟩

/-- The admissible but inconsistent heuristic of the C1 counterexample:
it overrates only node 1 (value 3, true remaining cost to goal 3 is 101
via the cheapest continuation, so it never overestimates). -/
def cxH : Nat → Nat := fun v => if v = 1 then 3 else 0

lemma wAdj_edge_into_3 (v : Nat) (p : Nat × Nat) (hp : p ∈ wAdj v)
    (h3 : p.1 = 3) : p.2 = 100 := by
  unfold wAdj at hp
  split_ifs at hp <;> simp at hp
  · rcases hp with rfl | rfl <;> simp_all
  · rcases hp with rfl | rfl <;> simp_all
  · rcases hp with rfl | rfl | rfl <;> simp_all
  · subst hp
    simp_all

lemma wAdj_walk_cost_to_3 :
    ∀ {u v c k}, Walk wAdj u v c k → v = 3 → u = 3 ∨ 100 ≤ c := by
  intro u v c k hwalk
  induction hwalk with
  | nil w => exact fun hw => Or.inl hw
  | cons hedge htail ih =>
    rename_i x y z cx d kk
    intro hz
    rcases ih hz with rfl | h100
    · have hcx : cx = 100 := wAdj_edge_into_3 x (3, cx) hedge rfl
      exact Or.inr (by omega)
    · exact Or.inr (by omega)

lemma cxH_admissible : Admissible wAdj cxH 3 := by
  intro v c k hwalk
  unfold cxH
  by_cases hv : v = 1
  · rw [if_pos hv]
    rcases wAdj_walk_cost_to_3 hwalk rfl with rfl | h100
    · simp at hv
    · omega
  · rw [if_neg hv]
    exact Nat.zero_le c

lemma wAdj_path_102 : PathTo wAdj 0 3 [0, 1, 2, 3] 102 := by
  have h1 : ((1 : Nat), (1 : Nat)) ∈ wAdj 0 := by simp [wAdj]
  have h2 : ((2 : Nat), (1 : Nat)) ∈ wAdj 1 := by simp [wAdj]
  have h3 : ((3 : Nat), (100 : Nat)) ∈ wAdj 2 := by simp [wAdj]
  have hw : ListWalk wAdj [0, 1, 2, 3] (1 + (1 + (100 + 0))) :=
    ListWalk.cons h1 (ListWalk.cons h2 (ListWalk.cons h3
      (ListWalk.single 3)))
  have he : (1 + (1 + (100 + 0)) : Nat) = 102 := by norm_num
  exact ⟨he ▸ hw, rfl, rfl⟩

/-- C1 counterexample: `cxH` is admissible for goal 3 on the witness
graph, yet the closed-set A* (which never reopens a closed node) returns
the path `[0, 2, 3]` of cost 103 while the zero-heuristic
(Dijkstra-equivalent) run on the same graph and endpoints returns
`[0, 1, 2, 3]` of cost 102, a genuinely cheaper valid path — so the
returned cost is not minimal and does not match the zero-heuristic run. -/
theorem astar_admissible_not_optimal :
    Admissible wAdj cxH 3 ∧
    (∃ st, astar wAdj cxH 0 3 20 = some (some [0, 2, 3], 103, st)) ∧
    (∃ st, astar wAdj (fun _ => 0) 0 3 20 =
      some (some [0, 1, 2, 3], 102, st)) ∧
    PathTo wAdj 0 3 [0, 1, 2, 3] 102 ∧ ¬ (103 : Nat) ≤ 102 :=
  ⟨cxH_admissible, ⟨_, rfl⟩, ⟨_, rfl⟩, wAdj_path_102, by omega⟩

/-- C1 amended: under the stronger hypothesis that the heuristic is
consistent (triangle inequality along every edge), A* terminates, every
returned path is a valid start-goal path of minimal cost over all
start-goal walks, and in particular its cost equals the cost of any
terminating zero-heuristic (Dijkstra-equivalent) run. -/
theorem astar_consistent_optimal (adj : Adj) (nodes : List Nat)
    (h : Nat → Nat) (start goal : Nat) (hwf : WF adj nodes)
    (hcons : Consistent adj h) :
    (∃ fuel r c st', astar adj h start goal fuel = some (r, c, st')) ∧
    (∀ fuel p c st', astar adj h start goal fuel = some (some p, c, st') →
      PathTo adj start goal p c ∧
      ∀ c' k, Walk adj start goal c' k → c ≤ c') ∧
    (∀ fuel1 fuel2 p1 c1 st1 p2 c2 st2,
      astar adj h start goal fuel1 = some (some p1, c1, st1) →
      astar adj (fun _ => 0) start goal fuel2 = some (some p2, c2, st2) →
      c1 = c2) := by
  have hinit := AInv.ainit adj nodes h start goal (List.not_mem_nil _)
  have hinit0 := AInv.ainit adj nodes (fun _ => 0) start goal
    (List.not_mem_nil _)
  have hcons0 : Consistent adj (fun _ => 0) := fun v p _ => Nat.zero_le _
  refine ⟨?_, ?_, ?_⟩
  · exact astarLoop_term adj nodes h start goal hwf _ _ _ _ _ hinit
      (le_refl _)
  · intro fuel p c st' heq
    refine ⟨(astarLoop_sound adj nodes h start goal hwf fuel _ _ _ _ hinit
      (some p) c st' heq).1 p rfl, ?_⟩
    exact astarLoop_opt adj nodes h start goal hwf hcons fuel _ _ _ _
      hinit (fun s hs => absurd hs (List.not_mem_nil s)) p c st' heq
  · intro fuel1 fuel2 p1 c1 st1 p2 c2 st2 h1 h2
    have hp1 := (astarLoop_sound adj nodes h start goal hwf fuel1 _ _ _ _
      hinit (some p1) c1 st1 h1).1 p1 rfl
    have hp2 := (astarLoop_sound adj nodes (fun _ => 0) start goal hwf
      fuel2 _ _ _ _ hinit0 (some p2) c2 st2 h2).1 p2 rfl
    obtain ⟨k1, hw1⟩ := listWalk_walk hp1.1 hp1.2.1 hp1.2.2
    obtain ⟨k2, hw2⟩ := listWalk_walk hp2.1 hp2.2.1 hp2.2.2
    have hle1 : c1 ≤ c2 := astarLoop_opt adj nodes h start goal hwf hcons
      fuel1 _ _ _ _ hinit (fun s hs => absurd hs (List.not_mem_nil s))
      p1 c1 st1 h1 c2 k2 hw2
    have hle2 : c2 ≤ c1 := astarLoop_opt adj nodes (fun _ => 0) start goal
      hwf hcons0 fuel2 _ _ _ _ hinit0
      (fun s hs => absurd hs (List.not_mem_nil s)) p2 c2 st2 h2 c1 k1 hw1
    omega

/-- C1 amendment witness: the zero heuristic is consistent on the witness
graph, so the amended optimality theorem applies to it. -/
theorem astar_consistent_optimal_witness :
    WF wAdj [0, 1, 2, 3] ∧ Consistent wAdj (fun _ => 0) ∧
    (∃ fuel r c st', astar wAdj (fun _ => 0) 0 3 fuel =
      some (r, c, st')) := by
  have hcons0 : Consistent wAdj (fun _ => 0) := fun v p _ => Nat.zero_le _
  exact ⟨wAdj_wf, hcons0, (astar_consistent_optimal wAdj [0, 1, 2, 3]
    (fun _ => 0) 0 3 wAdj_wf hcons0).1⟩

/-- C5: on a finite graph with no path from start to goal, each of the
three searches terminates normally and returns the `None` path sentinel
(and cost 0 for A*) as an ordinary value. -/
theorem no_path_sentinel (adj : Adj) (nodes : List Nat) (h : Nat → Nat)
    (start goal : Nat) (hwf : WF adj nodes)
    (hnr : ¬ Reachable adj start goal) :
    ((∃ fuel r st', bfs adj start goal fuel = some (r, st')) ∧
      ∀ fuel r st', bfs adj start goal fuel = some (r, st') → r = none) ∧
    ((∃ fuel r st', dfs adj start goal fuel = some (r, st')) ∧
      ∀ fuel r st', dfs adj start goal fuel = some (r, st') → r = none) ∧
    ((∃ fuel r c st', astar adj h start goal fuel = some (r, c, st')) ∧
      ∀ fuel r c st', astar adj h start goal fuel = some (r, c, st') →
        r = none ∧ c = 0) := by
  refine ⟨⟨?_, ?_⟩, ⟨?_, ?_⟩, ⟨?_, ?_⟩⟩
  · exact bfsLoop_term adj nodes start goal hwf _ _ _ []
      (BInv.binit adj nodes start goal (by simp)) (le_refl _)
  · intro fuel r st' heq
    have hs := bfsLoop_sound adj nodes start goal hwf fuel _ _ _
      (BInv.binit adj nodes start goal (by simp)) r st' heq
    cases r with
    | none => rfl
    | some p =>
      obtain ⟨⟨c, hc⟩, -⟩ := hs.1 p rfl
      exact absurd (pathTo_reachable hc) hnr
  · exact dfsLoop_term adj nodes start goal hwf _ _ _ []
      (DInv.dinit adj nodes start goal (by simp)) (le_refl _)
  · intro fuel r st' heq
    have hs := dfsLoop_sound adj nodes start goal hwf fuel _ _ _
      (DInv.dinit adj nodes start goal (by simp)) r st' heq
    cases r with
    | none => rfl
    | some p =>
      obtain ⟨c, hc⟩ := hs.1 p rfl
      exact absurd (pathTo_reachable hc) hnr
  · exact astarLoop_term adj nodes h start goal hwf _ _ _ _ _
      (AInv.ainit adj nodes h start goal (List.not_mem_nil _)) (le_refl _)
  · intro fuel r c st' heq
    have hs := astarLoop_sound adj nodes h start goal hwf fuel _ _ _ _
      (AInv.ainit adj nodes h start goal (List.not_mem_nil _)) r c st' heq
    cases r with
    | none => exact ⟨rfl, (hs.2 rfl).2⟩
    | some p => exact absurd (pathTo_reachable (hs.1 p rfl)) hnr

/-- The disconnected witness graph: components {0, 1} and {2, 3}. -/
def dAdj : Adj := fun v =>
  if v = 0 then [(1, 1)]
  else if v = 1 then [(0, 1)]
  else if v = 2 then [(3, 1)]
  else if v = 3 then [(2, 1)]
  else []

lemma dAdj_wf : WF dAdj [0, 1, 2, 3] := by
  intro v p hp
  unfold dAdj at hp
  split_ifs at hp <;> simp at hp <;> simp [hp]

lemma dAdj_not_reach : ¬ Reachable dAdj 0 3 := by
  rintro ⟨c, k, hw⟩
  have hclosure : ∀ x ∈ [0, 1], ∀ nc ∈ dAdj x, nc.1 ∈ [0, 1] := by
    intro x hx nc hnc
    simp at hx
    rcases hx with rfl | rfl <;> simp [dAdj] at hnc <;> simp [hnc]
  have h3 := walk_closed hclosure hw (by simp)
  simp at h3

/-- C5 witness: on the disconnected graph all three searches return the
sentinel, and the theorem applies. -/
theorem no_path_sentinel_witness :
    ¬ Reachable dAdj 0 3 ∧
    (∃ st, bfs dAdj 0 3 20 = some (none, st)) ∧
    (∃ st, dfs dAdj 0 3 20 = some (none, st)) ∧
    (∃ st, astar dAdj (fun _ => 0) 0 3 20 = some (none, 0, st)) ∧
    (∀ fuel r st', bfs dAdj 0 3 fuel = some (r, st') → r = none) := by
  refine ⟨dAdj_not_reach, ⟨_, rfl⟩, ⟨_, rfl⟩, ⟨_, rfl⟩,
    (no_path_sentinel dAdj [0, 1, 2, 3] (fun _ => 0) 0 3 dAdj_wf
      dAdj_not_reach).1.2⟩

/-- When every relaxed neighbor has a table entry, `relaxP` equals the
total-function relaxation run with the looked-up heuristic. -/
lemma relaxP_agree (table : List (Nat × Nat)) (gc : Nat) (path : List Nat)
    (cl' : List Nat) :
    ∀ (ncs : List (Nat × Nat)) (gm : Nat → Option Nat) (pl : List AEntry),
      (∀ nc ∈ ncs, lookupH table nc.1 ≠ none) →
      relaxP table gc path cl' ncs gm pl =
        .ok (relax (fun v => (lookupH table v).getD 0) gc path cl'
          ncs gm pl)
  | [], gm, pl, _ => by simp [relaxP, relax]
  | nc :: ncs, gm, pl, hcov => by
    rw [relaxP, relax]
    by_cases hcl : nc.1 ∉ cl'
    · rw [if_pos hcl, if_pos hcl]
      by_cases hless : gm nc.1 = none ∨ gc + nc.2 < (gm nc.1).getD 0
      · rw [if_pos hless, if_pos hless]
        cases hlk : lookupH table nc.1 with
        | none => exact absurd hlk (hcov nc (by simp))
        | some hn =>
          simp only [hlk, Option.getD_some]
          exact relaxP_agree table gc path cl' ncs _ _
            (fun x hx => hcov x (by simp [hx]))
      · rw [if_neg hless, if_neg hless]
        exact relaxP_agree table gc path cl' ncs gm pl
          (fun x hx => hcov x (by simp [hx]))
    · rw [if_neg hcl, if_neg hcl]
      exact relaxP_agree table gc path cl' ncs gm pl
        (fun x hx => hcov x (by simp [hx]))

/-- Every pushed heap entry of a relaxation carries either an entry
already pushed or the node of one of the relaxed neighbors. -/
lemma relax_push_nodes (h : Nat → Nat) (gc : Nat) (path : List Nat)
    (cl' : List Nat) :
    ∀ (ncs : List (Nat × Nat)) (gm : Nat → Option Nat) (pl : List AEntry)
      (e : AEntry), e ∈ (relax h gc path cl' ncs gm pl).2 →
      e ∈ pl ∨ ∃ nc ∈ ncs, e.2.2.1 = nc.1
  | [], gm, pl, e, he => by
    rw [relax] at he
    exact Or.inl he
  | nc :: ncs, gm, pl, e, he => by
    rw [relax] at he
    by_cases hcl : nc.1 ∉ cl'
    · rw [if_pos hcl] at he
      by_cases hless : gm nc.1 = none ∨ gc + nc.2 < (gm nc.1).getD 0
      · rw [if_pos hless] at he
        rcases relax_push_nodes h gc path cl' ncs _ _ e he with
          hpl | ⟨x, hx, hxe⟩
        · rcases List.mem_append.mp hpl with hpl | hpl
          · exact Or.inl hpl
          · simp at hpl
            subst hpl
            exact Or.inr ⟨nc, by simp, rfl⟩
        · exact Or.inr ⟨x, by simp [hx], hxe⟩
      · rw [if_neg hless] at he
        rcases relax_push_nodes h gc path cl' ncs _ _ e he with
          hpl | ⟨x, hx, hxe⟩
        · exact Or.inl hpl
        · exact Or.inr ⟨x, by simp [hx], hxe⟩
    · rw [if_neg hcl] at he
      rcases relax_push_nodes h gc path cl' ncs _ _ e he with
        hpl | ⟨x, hx, hxe⟩
      · exact Or.inl hpl
      · exact Or.inr ⟨x, by simp [hx], hxe⟩

/-- Unfolding of one partial-table `astar` loop iteration when the heap
is empty. -/
lemma astarLoopP_succ_none (adj : Adj) (table : List (Nat × Nat))
    (goal : Nat) (fuel : Nat) (oq : List AEntry) (gm : Nat → Option Nat)
    (cl : List Nat) (st : List AStep) (hpop : popMin oq = none) :
    astarLoopP adj table goal (fuel + 1) oq gm cl st =
      some (.ok (none, 0, st)) := by
  rw [astarLoopP, hpop]

/-- Unfolding of one partial-table `astar` loop iteration on a popped
heap entry. -/
lemma astarLoopP_succ_some (adj : Adj) (table : List (Nat × Nat))
    (goal : Nat) (fuel : Nat) (oq : List AEntry) (gm : Nat → Option Nat)
    (cl : List Nat) (st : List AStep) (f gc : Nat) (cur : Nat)
    (path : List Nat) (rest : List AEntry)
    (hpop : popMin oq = some ((f, gc, cur, path), rest)) :
    astarLoopP adj table goal (fuel + 1) oq gm cl st =
      if cur ∈ cl then astarLoopP adj table goal fuel rest gm cl st
      else
        match lookupH table cur with
        | none => some (.error cur)
        | some hc =>
          if cur = goal then
            some (.ok (some path, gc,
              st ++ [⟨cur, path, f, gc, hc, cur :: cl⟩]))
          else
            match relaxP table gc path (cur :: cl) (adj cur) gm [] with
            | .error x => some (.error x)
            | .ok gp =>
              astarLoopP adj table goal fuel (rest ++ gp.2) gp.1
                (cur :: cl) (st ++ [⟨cur, path, f, gc, hc, cur :: cl⟩]) := by
  rw [astarLoopP, hpop]

/-- Whenever the heuristic table covers every node of the (well-formed)
graph, the run against the real dict semantics never raises and agrees
step for step with the total-heuristic embedding. -/
lemma astarLoopP_agree (adj : Adj) (nodes : List Nat)
    (table : List (Nat × Nat)) (start goal : Nat) (hwf : WF adj nodes)
    (hcov : ∀ v ∈ start :: nodes, lookupH table v ≠ none) :
    ∀ (fuel : Nat) (oq : List AEntry) (gm : Nat → Option Nat)
      (cl : List Nat) (st : List AStep),
      (∀ e ∈ oq, e.2.2.1 ∈ start :: nodes) →
      astarLoopP adj table goal fuel oq gm cl st =
        (astarLoop adj (fun v => (lookupH table v).getD 0) goal fuel oq gm
          cl st).map Except.ok
  | 0, oq, gm, cl, st, hq => rfl
  | fuel + 1, oq, gm, cl, st, hq => by
    cases hpop : popMin oq with
    | none =>
      rw [astarLoopP_succ_none adj table goal fuel oq gm cl st hpop,
        astarLoop_succ_none adj _ goal fuel oq gm cl st hpop]
      rfl
    | some pr =>
      obtain ⟨⟨f, gc, cur, path⟩, rest⟩ := pr
      have hq' : ∀ e ∈ rest, e.2.2.1 ∈ start :: nodes := fun e he =>
        hq e ((popMin_perm hpop).mem_iff.mpr (List.mem_cons_of_mem _ he))
      have hcur : cur ∈ start :: nodes :=
        hq (f, gc, cur, path) ((popMin_perm hpop).mem_iff.mpr (by simp))
      rw [astarLoopP_succ_some adj table goal fuel oq gm cl st f gc cur
        path rest hpop, astarLoop_succ_some adj _ goal fuel oq gm cl st
        f gc cur path rest hpop]
      by_cases hcl : cur ∈ cl
      · rw [if_pos hcl, if_pos hcl]
        exact astarLoopP_agree adj nodes table start goal hwf hcov fuel
          rest gm cl st hq'
      · rw [if_neg hcl, if_neg hcl]
        cases hlk : lookupH table cur with
        | none => exact absurd hlk (hcov cur hcur)
        | some hc =>
          simp only [hlk, Option.getD_some]
          by_cases hg : cur = goal
          · rw [if_pos hg, if_pos hg]
            rfl
          · rw [if_neg hg, if_neg hg]
            have hcovn : ∀ nc ∈ adj cur, lookupH table nc.1 ≠ none :=
              fun nc hnc =>
                hcov nc.1 (List.mem_cons_of_mem _ (hwf cur nc hnc))
            rw [relaxP_agree table gc path (cur :: cl) (adj cur) gm []
              hcovn]
            refine astarLoopP_agree adj nodes table start goal hwf hcov
              fuel
              (rest ++ (relax (fun v => (lookupH table v).getD 0) gc path
                (cur :: cl) (adj cur) gm []).2)
              (relax (fun v => (lookupH table v).getD 0) gc path
                (cur :: cl) (adj cur) gm []).1
              (cur :: cl)
              (st ++ [⟨cur, path, f, gc, hc, cur :: cl⟩])
              (fun e he => ?_)
            rcases List.mem_append.mp he with he | he
            · exact hq' e he
            · rcases relax_push_nodes _ gc path (cur :: cl) (adj cur) gm
                [] e he with hpl | ⟨x, hx, hxe⟩
              · simp at hpl
              · rw [hxe]
                exact List.mem_cons_of_mem _ (hwf cur x hx)

/-- Chain graph 0 —5— 1 —5— 2 used by the heuristic-lookup claim. -/
def adj8 : Adj := fun v =>
  if v = 0 then [(1, 5)]
  else if v = 1 then [(0, 5), (2, 5)]
  else if v = 2 then [(1, 5)]
  else []

lemma adj8_wf : WF adj8 [0, 1, 2] := by
  intro v p hp
  unfold adj8 at hp
  split_ifs at hp <;> simp at hp
  · simp [hp]
  · rcases hp with rfl | rfl <;> simp
  · simp [hp]

/-- C8 counterexample: with `heuristic = {0: 0, 2: 0}` node 1 has no
entry; `heuristic[neighbor]` is a raw dict access, so relaxing node 1
raises `KeyError(1)` and the search fails instead of treating the missing
entry as 0 — while the same run with the full table succeeds. -/
theorem heuristic_missing_keyerror :
    lookupH [(0, 0), (2, 0)] 1 = none ∧
    astarP adj8 [(0, 0), (2, 0)] 0 2 10 = some (.error 1) ∧
    (∃ st, astarP adj8 [(0, 0), (1, 0), (2, 0)] 0 2 10 =
      some (.ok (some [0, 1, 2], 10, st))) :=
  ⟨rfl, rfl, ⟨_, rfl⟩⟩

/-- C8 amended: the raw dict access only behaves like a defaulting lookup
when the table actually covers every node of the graph; in that case the
real code never raises and agrees exactly with the A* embedding run on
the total heuristic `fun v => (lookupH table v).getD 0`. -/
theorem astarP_full_table (adj : Adj) (nodes : List Nat)
    (table : List (Nat × Nat)) (start goal : Nat) (fuel : Nat)
    (hwf : WF adj nodes)
    (hcov : ∀ v ∈ start :: nodes, lookupH table v ≠ none) :
    astarP adj table start goal fuel =
      (astar adj (fun v => (lookupH table v).getD 0) start goal fuel).map
        Except.ok := by
  unfold astarP astar
  cases hlk : lookupH table start with
  | none => exact absurd hlk (hcov start (by simp))
  | some hs =>
    simp only [hlk, Option.getD_some]
    exact astarLoopP_agree adj nodes table start goal hwf hcov fuel
      [(hs, 0, start, [start])] _ [] []
      (fun e he => by
        simp at he
        simp [he])

/-- C8 amendment witness: the agreement theorem applied to the chain
graph with a table covering all three nodes. -/
theorem astarP_full_table_witness :
    (∀ v ∈ (0 : Nat) :: [0, 1, 2],
      lookupH [(0, 0), (1, 0), (2, 0)] v ≠ none) ∧
    astarP adj8 [(0, 0), (1, 0), (2, 0)] 0 2 10 =
      (astar adj8 (fun v => (lookupH [(0, 0), (1, 0), (2, 0)] v).getD 0)
        0 2 10).map Except.ok :=
  ⟨by decide, astarP_full_table adj8 [0, 1, 2] [(0, 0), (1, 0), (2, 0)]
    0 2 10 adj8_wf (by decide)⟩

end Spec2Proof
